import Mathlib

/-!
Verification of the refpy pseudo-Boolean proof checker core
(`refpy/constraints.py`, `refpy/rules.py`) against its specification.

The Python source is embedded shallowly:

* `Term`, `Inequality`, `LazyInequality` become Lean structures; machine
  integers are `Int` (Python has arbitrary precision integers, so no
  wrap-around is modelled).
* Python's in-place mutation becomes functional record update.
* `Inequality._dict` (the cached map from absolute variable index to the
  *last* term carrying that variable) is modelled by the `dictBuilt` flag
  together with the functions `lookupLast` / `updLast` / `dedupKeys`,
  which reproduce exactly which list entry the dict aliases.
* Fallible code (parsing, the RPN stack machine) returns `Option`;
  a Python exception (ValueError, IndexError, AssertionError,
  ZeroDivisionError) is modelled as `none`.
-/

/-- Source `copysign` from `refpy/constraints.py`: magnitude of `a` with the sign of
`b` (`b = 0` counts as non-negative, as in the Python source). -/
def copysign (a b : Int) : Int :=
  if 0 ≤ b then |a| else -|a|

/-- Source `Term = structclass("Term", "coefficient variable")`. -/
structure Term where
  coefficient : Int
  var : Int
deriving DecidableEq, Repr

/-- Source `AllBooleanUpperBound.__getitem__`: every variable has upper bound 1. -/
def AllBooleanUpperBound (_ : Nat) : Int := 1

/-- The absolute variable index of a term (`abs(term.var)`), the key of
`Inequality._dict`. -/
def keyOf (t : Term) : Nat := t.var.natAbs

/-- Source `Inequality` from `refpy/constraints.py`.  `dictBuilt` records whether
`self._dict` is populated (it starts out `None`, is built on first access in
`addWithFactor`/`saturate`, and is reset by `contract`); `contract` is a no-op
while it is `None`. -/
structure Inequality where
  terms : List Term
  degree : Int
  dictBuilt : Bool
deriving DecidableEq, Repr

/-- Source `Inequality.__init__` followed by `normalize()`: a term with negative
coefficient `c < 0` becomes `(|c|, -v)` and the degree grows by
`ub(|v|) * |c|`.  This is the sole transformation of construction. -/
def mkInequality (terms : List Term) (degree : Int) : Inequality :=
  { terms := terms.map fun t =>
      if t.coefficient < 0 then Term.mk (-t.coefficient) (-t.var) else t
    degree := degree + (terms.map fun t =>
      if t.coefficient < 0 then
        AllBooleanUpperBound (t.var.natAbs) * (-t.coefficient)
      else 0).sum
    dictBuilt := false }

/-- Is some term with absolute variable index `k` present? (`k in self.dict`). -/
def hasKey (k : Nat) (l : List Term) : Bool :=
  l.any fun t => keyOf t == k

/-- The term `self.dict[k]` aliases: the *last* list entry whose absolute
variable index is `k` (the dict comprehension lets later entries win). -/
def lookupLast (k : Nat) : List Term → Option Term
  | [] => none
  | t :: ts =>
    match lookupLast k ts with
    | some r => some r
    | none => if keyOf t = k then some t else none

/-- Overwrite the list entry that `self.dict[k]` aliases (the last entry with
key `k`) with `nt`; identity when the key is absent. -/
def updLast (k : Nat) (nt : Term) : List Term → List Term
  | [] => []
  | t :: ts =>
    if hasKey k ts then t :: updLast k nt ts
    else if keyOf t = k then nt :: ts
    else t :: ts

/-- One iteration of the loop body of `Inequality.addWithFactor`: merge a
single (already factor-scaled) term `ot` of `other` into the accumulator. -/
def mergeTerm (st : Inequality) (ot : Term) : Inequality :=
  match lookupLast (keyOf ot) st.terms with
  | none => { st with terms := st.terms ++ [ot] }
  | some my =>
    let a := copysign my.coefficient my.var
    let b := copysign ot.coefficient ot.var
    let newCoefficient := a + b
    let newVariable := copysign |my.var| newCoefficient
    let cancellation := max 0 (max my.coefficient ot.coefficient - |newCoefficient|)
    { st with
      terms := updLast (keyOf ot) (Term.mk |newCoefficient| newVariable) st.terms
      degree := st.degree - cancellation * AllBooleanUpperBound my.var.natAbs }

/-- Source `Inequality.addWithFactor(factor, other)`.  Only `other.terms` and
`other.degree` are read from `other` (so a `LazyInequality` may be passed as
`other` through its exposed view); they are the last two arguments.  The dict
is built on the first loop iteration, hence `dictBuilt` becomes true exactly
when `other` has at least one term. -/
def Inequality.addWithFactor (self : Inequality) (factor : Int)
    (otherTerms : List Term) (otherDegree : Int) : Inequality :=
  let st : Inequality :=
    { self with
      degree := self.degree + factor * otherDegree
      dictBuilt := self.dictBuilt || !otherTerms.isEmpty }
  (otherTerms.map fun t => Term.mk (factor * t.coefficient) t.var).foldl
    mergeTerm st

/-- Source `Inequality.saturate()`: every coefficient becomes
`min(coefficient, degree)`; the bare `self.dict` statement builds the dict. -/
def Inequality.saturate (c : Inequality) : Inequality :=
  { terms := c.terms.map fun t => Term.mk (min t.coefficient c.degree) t.var
    degree := c.degree
    dictBuilt := true }

/-- Source `Inequality.divide(d)`: ceiling division (Python floor division `//` is
`Int.fdiv`) of every coefficient and of the degree. -/
def Inequality.divide (c : Inequality) (d : Int) : Inequality :=
  { terms := c.terms.map fun t => Term.mk ((t.coefficient + d - 1).fdiv d) t.var
    degree := (c.degree + d - 1).fdiv d
    dictBuilt := c.dictBuilt }

/-- Source `Inequality.multiply(f)`: scale every coefficient and the degree. -/
def Inequality.multiply (c : Inequality) (f : Int) : Inequality :=
  { terms := c.terms.map fun t => Term.mk (t.coefficient * f) t.var
    degree := c.degree * f
    dictBuilt := c.dictBuilt }

/-- Source `self.dict.values()` as a list: one entry per absolute variable index, in
order of first occurrence, each holding the *last* term with that key. -/
def dedupKeys (l : List Term) : List Term :=
  l.foldl
    (fun acc t =>
      if hasKey (keyOf t) acc then
        acc.map fun u => if keyOf u = keyOf t then t else u
      else acc ++ [t])
    []

/-- The list `[x for x in self.dict.values() if x.coefficient != 0]`. -/
def cleanTerms (l : List Term) : List Term :=
  (dedupKeys l).filter fun t => t.coefficient != 0

/-- Source `Inequality.contract()`: drops duplicated keys and zero coefficients, but
only when `self._dict` is populated; otherwise it does nothing. -/
def Inequality.contract (c : Inequality) : Inequality :=
  if c.dictBuilt then
    { terms := cleanTerms c.terms, degree := c.degree, dictBuilt := false }
  else c

/-- Source `Inequality.isContradiction()`: `sum of coefficients < degree`. -/
def Inequality.isContradiction (c : Inequality) : Bool :=
  decide ((-c.degree + (c.terms.map Term.coefficient).sum) < 0)

/-- Comparison key used by `Inequality.__eq__` (`key = abs(x.var)`). -/
def termLE (s t : Term) : Prop := keyOf s ≤ keyOf t

instance : DecidableRel termLE := fun s t => Nat.decLe (keyOf s) (keyOf t)

instance : IsTotal Term termLE := ⟨fun s t => Nat.le_total (keyOf s) (keyOf t)⟩

instance : IsTrans Term termLE := ⟨fun _ _ _ h h2 => Nat.le_trans h h2⟩

/-- Source `sorted(terms, key = lambda x: abs(x.var))`. -/
def sortTerms (l : List Term) : List Term := List.insertionSort termLE l

/-- Source `Inequality.__eq__`: contract both sides (a no-op on a side whose dict is
not populated), then compare degrees and the term lists sorted by absolute
variable index. -/
def Inequality.eqPy (a b : Inequality) : Prop :=
  a.contract.degree = b.contract.degree ∧
    sortTerms a.contract.terms = sortTerms b.contract.terms

instance (a b : Inequality) : Decidable (a.eqPy b) := by
  unfold Inequality.eqPy; infer_instance

/-- The specification's structural equality on constraints: contract *both*
sides unconditionally, then compare degree and the terms sorted by absolute
variable index (equality modulo term ordering). -/
def eqAbs (a b : Inequality) : Prop :=
  a.degree = b.degree ∧ sortTerms (cleanTerms a.terms) = sortTerms (cleanTerms b.terms)

instance (a b : Inequality) : Decidable (eqAbs a b) := by
  unfold eqAbs; infer_instance

/-- All coefficients non-negative (normal form invariant 1). -/
def nonnegTerms (l : List Term) : Prop := ∀ t ∈ l, 0 ≤ t.coefficient

instance (l : List Term) : Decidable (nonnegTerms l) :=
  List.decidableBAll _ l

/-- At most one term per absolute variable index (normal form invariant 2). -/
def nodupKeys (l : List Term) : Prop := (l.map keyOf).Nodup

instance (l : List Term) : Decidable (nodupKeys l) := by
  unfold nodupKeys; infer_instance

/-- The normal form invariant of the specification. -/
def NF (c : Inequality) : Prop := nonnegTerms c.terms ∧ nodupKeys c.terms

instance (c : Inequality) : Decidable (NF c) := by
  unfold NF; infer_instance

/-- The pending operations of `LazyInequality.operations`:
`("s", i)`, `("d", d)` and `("*", f)` from `refpy/constraints.py`. -/
inductive LazyOp where
  | sat (i : Nat)
  | div (d : Int)
  | mul (f : Int)
deriving DecidableEq, Repr

/-- Source `LazyInequality`: a base constraint plus recorded pending operations and
the degrees cached by recorded saturations. -/
structure LazyInequality where
  constraint : Inequality
  operations : List LazyOp
  degrees : List Int
deriving DecidableEq, Repr

/-- One step of `LazyInequality.apply`'s loop.  A recorded saturation reads the
cached degree `degrees[i]`; the index is always in range by construction
(`getD` supplies a dummy default).  A recorded division performs Python's
floor division; the source raises ZeroDivisionError for divisor 0, and every
use below applies the pipeline only with non-zero divisors. -/
def applyOne (degrees : List Int) (value : Int) : LazyOp → Int
  | .sat i => min (degrees.getD i 0) value
  | .div d => (value + d - 1).fdiv d
  | .mul f => value * f

/-- Source `LazyInequality.apply(value)`: run the recorded operations in order. -/
def LazyInequality.apply (L : LazyInequality) (value : Int) : Int :=
  L.operations.foldl (applyOne L.degrees) value

/-- The `degree` property of a `LazyInequality`. -/
def LazyInequality.degree (L : LazyInequality) : Int :=
  L.apply L.constraint.degree

/-- Source `LazyInequality.applyTerm`. -/
def LazyInequality.applyTerm (L : LazyInequality) (t : Term) : Term :=
  Term.mk (L.apply t.coefficient) t.var

/-- The `terms` property of a `LazyInequality`. -/
def LazyInequality.terms (L : LazyInequality) : List Term :=
  L.constraint.terms.map L.applyTerm

/-- Source `LazyInequality.saturate()`: cache the current effective degree and record
an `("s", index)` operation pointing at it. -/
def LazyInequality.saturate (L : LazyInequality) : LazyInequality :=
  let ds := L.degrees ++ [L.apply L.constraint.degree]
  { L with degrees := ds, operations := L.operations ++ [.sat (ds.length - 1)] }

/-- Source `LazyInequality.divide(d)`: record only. -/
def LazyInequality.divide (L : LazyInequality) (d : Int) : LazyInequality :=
  { L with operations := L.operations ++ [.div d] }

/-- Source `LazyInequality.multiply(f)`: record only. -/
def LazyInequality.multiply (L : LazyInequality) (f : Int) : LazyInequality :=
  { L with operations := L.operations ++ [.mul f] }

/-- Source `LazyInequality.__init__(constraint)`. -/
def mkLazy (c : Inequality) : LazyInequality := ⟨c, [], []⟩

/-- Every recorded saturation index points into `degrees` (true by
construction for every pipeline the source ever builds). -/
def LazyInequality.wfOps (L : LazyInequality) : Bool :=
  L.operations.all fun op =>
    match op with
    | .sat i => decide (i < L.degrees.length)
    | _ => true

-- Rules layer (`refpy/rules.py`).

/-- A token of the reverse-polish rule `p`: a number or one of `+ * d s`. -/
inductive RTok where
  | num (n : Int)
  | add
  | mul
  | div
  | sat
deriving DecidableEq, Repr

/-- Python `int(word)` restricted to an optional sign followed by decimal
digits (the only shapes the proof format produces); `none` models the
ValueError raised on anything else. -/
def digitsVal (l : List Char) : Option Nat :=
  match l with
  | [] => none
  | _ =>
    l.foldl
      (fun acc c =>
        match acc with
        | none => none
        | some n => if c.isDigit then some (n * 10 + (c.toNat - 48)) else none)
      (some 0)

/-- Source `int(word)` for a full token. -/
def pyInt (s : String) : Option Int :=
  match s.data with
  | '-' :: rest => (digitsVal rest).map fun n => -(n : Int)
  | '+' :: rest => (digitsVal rest).map fun n => (n : Int)
  | l => (digitsVal l).map fun n => (n : Int)

/-- The token classifier `f` inside `ReversePolishNotat...parse`: the four
operator words, otherwise `int(word)`. -/
def rpnTok (w : String) : Option RTok :=
  if w = "+" then some .add
  else if w = "*" then some .mul
  else if w = "d" then some .div
  else if w = "s" then some .sat
  else (pyInt w).map .num

/-- Source `if sequence[-1] == 0: sequence.pop()`. -/
def dropTrailing0 (seq : List RTok) : List RTok :=
  if seq.getLast? = some (.num 0) then seq.dropLast else seq

/-- One step of the preprocessing loop in the RPN rule's `__init__`: if the
token at position `i` is `*` or `d`, swap it with the token at position
`i - 1` (Python index `-1`, i.e. the last position, when `i = 0`). -/
def swapStep (l : List RTok) (i : Nat) : List RTok :=
  match l.get? i with
  | some x =>
    if x = .mul ∨ x = .div then
      let j := if i = 0 then l.length - 1 else i - 1
      let y := l.getD j x
      (l.set i y).set j x
    else l
  | none => l

/-- The whole preprocessing loop: each `*`/`d` operator is moved in front of
its scalar operand. -/
def swapOps (l : List RTok) : List RTok :=
  (List.range l.length).foldl swapStep l

/-- Source `ReversePolishNotat...parse(line)` on the whitespace-split words of the
line: classify every word (a ValueError on a malformed number becomes
`none`), drop a trailing `0`, and run the `__init__` swap.  The empty line
(`sequence[-1]` raising IndexError) is also `none`.  No stack-size check of
any kind happens here. -/
def rpnParse (words : List String) : Option (List RTok) :=
  match words.mapM rpnTok with
  | none => none
  | some [] => none
  | some seq => some (swapOps (dropTrailing0 seq))

/-- The stack-size accounting of the `check`/`finalCheck` guards inside the
RPN rule's `getParser`: numbers count `+1`, each of `+ * d` counts `-1`, `s`
counts `0`; the count must never go negative and must end at exactly 1. -/
def rpnDelta : RTok → Int
  | .num _ => 1
  | .add => -1
  | .mul => -1
  | .div => -1
  | .sat => 0

/-- The guard run from intermediate count `s`. -/
def rpnGuardFrom (s : Int) : List RTok → Bool
  | [] => s == 1
  | t :: rest =>
    let s2 := s + rpnDelta t
    if s2 < 0 then false else rpnGuardFrom s2 rest

/-- The full parser-side guard of `getParser`. -/
def rpnGuard (l : List RTok) : Bool := rpnGuardFrom 0 l

/-- An element of the working stack of the RPN rule's `compute`: antecedents
are pushed wrapped in `LazyInequality`; `+` pushes a materialized
`Inequality`. -/
inductive StackElem where
  | lazy (L : LazyInequality)
  | mat (c : Inequality)
deriving DecidableEq, Repr

/-- The exposed terms of a stack element. -/
def StackElem.viewTerms : StackElem → List Term
  | .lazy L => L.terms
  | .mat c => c.terms

/-- The exposed degree of a stack element. -/
def StackElem.viewDegree : StackElem → Int
  | .lazy L => L.degree
  | .mat c => c.degree

/-- The constraint a stack element denotes.  For a lazy element this is the
materialization `Inequality(self.terms, self.degree)` performed by
`LazyInequality.addWithFactor` (the constructor normalizes). -/
def StackElem.toInequality : StackElem → Inequality
  | .mat c => c
  | .lazy L => mkInequality L.terms L.degree

/-- Source `stack[0].contract()` at the end of `compute`:
`LazyInequality.contract` is `pass`. -/
def StackElem.contract : StackElem → StackElem
  | .mat c => .mat c.contract
  | .lazy L => .lazy L

/-- Source `saturate` on a stack element (immediate on a materialized constraint,
recorded on a lazy one). -/
def StackElem.saturate : StackElem → StackElem
  | .lazy L => .lazy L.saturate
  | .mat c => .mat c.saturate

/-- Source `multiply` on a stack element. -/
def StackElem.multiply (k : Int) : StackElem → StackElem
  | .lazy L => .lazy (L.multiply k)
  | .mat c => .mat (c.multiply k)

/-- The loop of the RPN rule's `compute` over the (already swapped)
instructions, carrying the working stack (top first) and the not yet
consumed antecedents.  `none` models the Python crashes: popping an empty
stack (IndexError), a missing antecedent or scalar operand (StopIteration),
an operand of `*`/`d` that is not a number, `Inequality.divide(0)`
(ZeroDivisionError), and a final stack size other than 1 (the `assert`).
Note `LazyInequality.divide(0)` merely records the zero divisor. -/
def rpnRun : List RTok → List StackElem → List Inequality → Option StackElem
  | [], [x], _ => some x
  | [], _, _ => none
  | .num _ :: rest, st, a :: ants => rpnRun rest (.lazy (mkLazy a) :: st) ants
  | .num _ :: _, _, [] => none
  | .add :: rest, second :: first :: st, ants =>
    rpnRun rest
      (.mat (first.toInequality.addWithFactor 1 second.viewTerms second.viewDegree)
        :: st) ants
  | .mul :: .num k :: rest, top :: st, ants =>
    rpnRun rest (top.multiply k :: st) ants
  | .div :: .num k :: rest, .lazy L :: st, ants =>
    rpnRun rest (.lazy (L.divide k) :: st) ants
  | .div :: .num k :: rest, .mat c :: st, ants =>
    if k = 0 then none else rpnRun rest (.mat (c.divide k) :: st) ants
  | .sat :: rest, top :: st, ants => rpnRun rest (top.saturate :: st) ants
  | _, _, _ => none

/-- Source `ReversePolishNotat...compute(antecedents)` on swapped instructions:
run the stack machine from an empty stack and contract the single result. -/
def rpnCompute (instructions : List RTok) (ants : List Inequality) :
    Option StackElem :=
  (rpnRun instructions [] ants).map StackElem.contract

/-- Source `LinearCombination.compute(antecedents)` (rule `a`): start from
`Inequality()` and accumulate `addWithFactor(factor, constraint)` over
`zip(factors, antecedents)`. -/
def lcCompute (factors : List Int) (ants : List Inequality) : Inequality :=
  (factors.zip ants).foldl
    (fun acc p => acc.addWithFactor p.1 p.2.terms p.2.degree)
    (mkInequality [] 0)

/-- Source `IsContradiction.parse(line)` on the whitespace-split words (rule `c`):
exactly two words are required, the first is read with `int`, and the second
word is never examined.  The returned value is the parsed antecedent id. -/
def icParse (words : List String) : Option Int :=
  match words with
  | [v, _] => pyInt v
  | _ => none

/-- The line shape `IsContradiction.getParser` accepts: a signed integer id
followed by the literal word `0`. -/
def icGuard (words : List String) : Bool :=
  match words with
  | [v, z] => (pyInt v).isSome && z == "0"
  | _ => false

/-- Source `LoadFormula.parse(line, formula)` on the whitespace-split words, as
invoked through `LoadFormulaWrapper.parse` (rule `f`).  With two words the
first is read with `int` and passed as `numVars`; with one word nothing at
all is parsed; otherwise ValueError.  `LoadFormula.__init__` discards
`numVars`, keeping only the formula, so the parsed rule is modelled as the
stored formula itself. -/
def lfParse (words : List String) (formula : List Inequality) :
    Option (List Inequality) :=
  match words with
  | [v, _] => (pyInt v).map fun _ => formula
  | [_] => some formula
  | _ => none

/-- Source `LoadFormulaWrapper.parse` delegates to `LoadFormula.parse`. -/
def lfWrapperParse (words : List String) (formula : List Inequality) :
    Option (List Inequality) :=
  lfParse words formula

/-- Source `LoadFormula.compute(antecedents)`: return the stored formula, in
order. -/
def lfCompute (formula : List Inequality) : List Inequality := formula

-- Abstraction layer used by the algebraic proofs: the signed coefficient a
-- term carries on its variable, the "negative part" a term contributes to the
-- stored degree, and the underlying (semantic) degree of a constraint.

/-- The signed coefficient of a term: `+c` on a positive literal, `-c` on a
negated one (for the normalized representation with `c ≥ 0`). -/
def signedCo (t : Term) : Int := copysign t.coefficient t.var

/-- Negative part. -/
def np (x : Int) : Int := max 0 (-x)

/-- Total negative part of a term list. -/
def npSum (l : List Term) : Int := (l.map fun t => np (signedCo t)).sum

/-- Sum of the signed coefficients sitting on absolute variable index `k`. -/
def sumSigned (k : Nat) (l : List Term) : Int :=
  (l.map fun t => if keyOf t = k then signedCo t else 0).sum

/-- The semantic degree of the stored constraint: stored degree minus the
constants contributed by negated literals (`¬x = 1 - x`). -/
def rdeg (c : Inequality) : Int := c.degree - npSum c.terms

/-- No term sits on the reserved variable index 0 (spec data model: literals
are non-zero integers). -/
def noZeroVar (l : List Term) : Prop := ∀ t ∈ l, t.var ≠ 0

instance (l : List Term) : Decidable (noZeroVar l) := List.decidableBAll _ l

/-- Strict key order, used to identify equal sorted lists. -/
def termLT (s t : Term) : Prop := keyOf s < keyOf t

instance : IsAntisymm Term termLT :=
  ⟨fun _ _ h h2 => absurd (Nat.lt_trans h h2) (Nat.lt_irrefl _)⟩

/-- Well-formedness of an addition-only RPN program, run from a stack of
size `s`: an id pushes, `+` needs two elements and pops one net, and the
final stack must hold exactly one element.  Programs containing `* d s` are
not of this shape. -/
def rpnWF (s : Nat) : List RTok → Bool
  | [] => s == 1
  | .num _ :: rest => rpnWF (s + 1) rest
  | .add :: rest => decide (2 ≤ s) && rpnWF (s - 1) rest
  | _ => false

/-- Number of id tokens (each consumes one antecedent). -/
def countNums : List RTok → Nat
  | [] => 0
  | .num _ :: rest => countNums rest + 1
  | _ :: rest => countNums rest

/-- Normal form of the exposed view of a stack element. -/
def NFview (e : StackElem) : Prop :=
  nonnegTerms e.viewTerms ∧ nodupKeys e.viewTerms ∧ noZeroVar e.viewTerms

theorem copysign_natAbs (a b : Int) : (copysign a b).natAbs = a.natAbs := by
  unfold copysign
  split <;> simp [Int.natAbs_neg, Int.natAbs_abs]

theorem abs_copysign (a b : Int) : |copysign a b| = |a| := by
  unfold copysign
  split <;> simp

theorem copysign_nonneg (a : Int) {b : Int} (hb : 0 ≤ b) :
    copysign a b = |a| := by
  unfold copysign
  simp [hb]

theorem copysign_neg' (a : Int) {b : Int} (hb : b < 0) :
    copysign a b = -|a| := by
  unfold copysign
  simp [not_le.mpr hb]

theorem abs_signedCo {t : Term} (h : 0 ≤ t.coefficient) :
    |signedCo t| = t.coefficient := by
  rw [signedCo, abs_copysign, abs_of_nonneg h]

theorem copysign_mul_left {f : Int} (hf : 0 ≤ f) (a b : Int) :
    copysign (f * a) b = f * copysign a b := by
  unfold copysign
  rcases le_or_lt 0 b with hb | hb
  · simp [hb, abs_mul, abs_of_nonneg hf]
  · rw [if_neg (not_le.mpr hb), if_neg (not_le.mpr hb), abs_mul,
      abs_of_nonneg hf]
    ring

theorem np_zero : np 0 = 0 := rfl

theorem np_mul_left {f : Int} (hf : 0 ≤ f) (x : Int) :
    np (f * x) = f * np x := by
  unfold np
  rcases le_or_lt 0 x with hx | hx
  · rw [max_eq_left (neg_nonpos.mpr (mul_nonneg hf hx)),
      max_eq_left (neg_nonpos.mpr hx)]
    simp
  · rw [max_eq_right (neg_nonneg.mpr (mul_nonpos_of_nonneg_of_nonpos hf hx.le)),
      max_eq_right (neg_nonneg.mpr hx.le)]
    ring

/-- The key identity behind `addWithFactor`'s degree bookkeeping: for
magnitudes `|a|`, `|b|` the cancellation equals the loss of negative parts. -/
theorem cancel_eq (a b : Int) :
    max 0 (max |a| |b| - |a + b|) = np a + np b - np (a + b) := by
  unfold np
  rcases abs_cases a with ⟨ea, ha⟩ | ⟨ea, ha⟩ <;>
    rcases abs_cases b with ⟨eb, hb⟩ | ⟨eb, hb⟩ <;>
    rcases abs_cases (a + b) with ⟨es, hs⟩ | ⟨es, hs⟩ <;>
    rw [ea, eb, es] <;> simp only [max_def] <;> split_ifs <;> omega

-- Properties of the dict model (`lookupLast` / `updLast`).

theorem hasKey_iff {k : Nat} {l : List Term} :
    hasKey k l = true ↔ ∃ t ∈ l, keyOf t = k := by
  simp [hasKey, List.any_eq_true]

theorem lookupLast_isSome {k : Nat} :
    ∀ l : List Term, (lookupLast k l).isSome = hasKey k l
  | [] => rfl
  | t :: ts => by
    have ih := lookupLast_isSome (k := k) ts
    rw [lookupLast]
    cases hts : lookupLast k ts with
    | some r =>
      rw [hts] at ih
      have h2 : hasKey k ts = true := by simpa using ih.symm
      simp only [Option.isSome_some, hasKey, List.any_cons]
      rw [hasKey] at h2
      rw [h2, Bool.or_true]
    | none =>
      rw [hts] at ih
      have h2 : hasKey k ts = false := by simpa using ih.symm
      have h3 : ∀ x ∈ ts, keyOf x ≠ k := by
        intro x hx hk
        rw [hasKey_iff.mpr ⟨x, hx, hk⟩] at h2
        cases h2
      rw [hasKey] at h2
      by_cases hkt : keyOf t = k
      · simp only [hasKey, List.any_cons, h2, Bool.or_false, hkt]
        simp
      · simp only [hasKey, List.any_cons, h2, Bool.or_false, hkt]
        simp [hkt]

theorem lookupLast_none {k : Nat} {l : List Term}
    (h : lookupLast k l = none) : ∀ t ∈ l, keyOf t ≠ k := by
  intro t ht hk
  have h1 : hasKey k l = true := hasKey_iff.mpr ⟨t, ht, hk⟩
  have h2 := lookupLast_isSome (k := k) l
  rw [h, h1] at h2
  simp at h2

/-- Decomposition of a successful dict lookup: the list splits around the
last entry with key `k`, and `updLast` rewrites exactly that entry. -/
theorem lookupLast_decomp {k : Nat} :
    ∀ {l : List Term} {my : Term}, lookupLast k l = some my →
      ∃ l₁ l₂, l = l₁ ++ my :: l₂ ∧ keyOf my = k ∧
        (∀ t ∈ l₂, keyOf t ≠ k) ∧ ∀ nt, updLast k nt l = l₁ ++ nt :: l₂
  | [], my => by intro h; simp [lookupLast] at h
  | t :: ts, my => by
    intro h
    cases hts : lookupLast k ts with
    | some r =>
      have hr : r = my := by
        rw [lookupLast, hts] at h
        exact Option.some_injective _ h
      subst hr
      obtain ⟨l₁, l₂, el, hk, h2, hupd⟩ := lookupLast_decomp hts
      refine ⟨t :: l₁, l₂, by simp [el], hk, h2, fun nt => ?_⟩
      have hhk : hasKey k ts = true := by
        rw [← lookupLast_isSome, hts]; rfl
      rw [updLast, if_pos hhk, hupd nt]
      simp
    | none =>
      rw [lookupLast, hts] at h
      by_cases hkey : keyOf t = k
      · rw [if_pos hkey] at h
        have ht : t = my := Option.some_injective _ h
        subst ht
        refine ⟨[], ts, rfl, hkey, lookupLast_none hts, fun nt => ?_⟩
        have hhk : hasKey k ts = false := by
          rw [← lookupLast_isSome, hts]; rfl
        rw [updLast, hhk, if_pos hkey]
        simp
      · rw [if_neg hkey] at h
        exact absurd h (by simp)

-- Sum bookkeeping helpers.

theorem sumSigned_append (k : Nat) (l₁ l₂ : List Term) :
    sumSigned k (l₁ ++ l₂) = sumSigned k l₁ + sumSigned k l₂ := by
  simp [sumSigned]

theorem sumSigned_cons (k : Nat) (t : Term) (l : List Term) :
    sumSigned k (t :: l)
      = (if keyOf t = k then signedCo t else 0) + sumSigned k l := by
  simp [sumSigned]

theorem npSum_append (l₁ l₂ : List Term) :
    npSum (l₁ ++ l₂) = npSum l₁ + npSum l₂ := by
  simp [npSum]

theorem npSum_cons (t : Term) (l : List Term) :
    npSum (t :: l) = np (signedCo t) + npSum l := by
  simp [npSum]

theorem sumSigned_eq_zero {k : Nat} {l : List Term}
    (h : ∀ t ∈ l, keyOf t ≠ k) : sumSigned k l = 0 := by
  rw [sumSigned]
  apply List.sum_eq_zero
  intro x hx
  simp only [List.mem_map] at hx
  obtain ⟨t, ht, rfl⟩ := hx
  rw [if_neg (h t ht)]

theorem signedCo_merge {v s : Int} (hv : v ≠ 0) :
    copysign |s| (copysign |v| s) = s := by
  unfold copysign
  rcases le_or_lt 0 s with hs | hs
  · rw [if_pos hs, if_pos (abs_nonneg _), abs_abs, abs_of_nonneg hs]
  · rw [if_neg (not_le.mpr hs), if_neg, abs_abs, abs_of_neg hs, neg_neg]
    simp only [not_le, Left.neg_neg_iff]
    exact abs_pos.mpr (abs_ne_zero.mpr hv)

theorem nodupKeys_split {l₁ l₂ : List Term} {my : Term}
    (h : nodupKeys (l₁ ++ my :: l₂)) :
    (∀ t ∈ l₁, keyOf t ≠ keyOf my) ∧ (∀ t ∈ l₂, keyOf t ≠ keyOf my) := by
  rw [nodupKeys, List.map_append, List.map_cons, List.nodup_append] at h
  obtain ⟨_, h2, h3⟩ := h
  constructor
  · intro t ht he
    exact h3 (List.mem_map_of_mem keyOf ht) (by simp [he])
  · intro t ht he
    rw [List.nodup_cons] at h2
    exact h2.1 (he ▸ List.mem_map_of_mem keyOf ht)


/-- Everything a single `addWithFactor` loop iteration does, in terms of the
abstraction: normal form is preserved, the semantic degree drops by the
negative part of the incoming signed coefficient, and the signed coefficient
map gains the incoming term's contribution at its key. -/
theorem mergeTerm_spec {st : Inequality} {ot : Term}
    (hnn : nonnegTerms st.terms) (hnd : nodupKeys st.terms)
    (hnz : noZeroVar st.terms)
    (hoc : 0 ≤ ot.coefficient) (hov : ot.var ≠ 0) :
    nonnegTerms (mergeTerm st ot).terms ∧ nodupKeys (mergeTerm st ot).terms ∧
    noZeroVar (mergeTerm st ot).terms ∧
    (mergeTerm st ot).degree - npSum (mergeTerm st ot).terms
      = st.degree - npSum st.terms - np (signedCo ot) ∧
    (∀ k, sumSigned k (mergeTerm st ot).terms
      = sumSigned k st.terms + (if keyOf ot = k then signedCo ot else 0)) ∧
    (mergeTerm st ot).dictBuilt = st.dictBuilt := by
  cases h : lookupLast (keyOf ot) st.terms with
  | none =>
    have hno : ∀ t ∈ st.terms, keyOf t ≠ keyOf ot := lookupLast_none h
    have hres : mergeTerm st ot = { st with terms := st.terms ++ [ot] } := by
      unfold mergeTerm
      rw [h]
    rw [hres]
    refine ⟨?_, ?_, ?_, ?_, ?_, rfl⟩
    · intro t ht
      rcases List.mem_append.mp ht with h1 | h1
      · exact hnn t h1
      · rw [List.mem_singleton.mp h1]; exact hoc
    · show nodupKeys (st.terms ++ [ot])
      rw [nodupKeys, List.map_append]
      refine List.Nodup.append hnd (by simp) ?_
      intro x hx1 hx2
      simp only [List.mem_map] at hx1
      obtain ⟨t, ht, rfl⟩ := hx1
      simp only [List.map_cons, List.map_nil, List.mem_singleton] at hx2
      exact hno t ht hx2
    · intro t ht
      rcases List.mem_append.mp ht with h1 | h1
      · exact hnz t h1
      · rw [List.mem_singleton.mp h1]; exact hov
    · show st.degree - npSum (st.terms ++ [ot]) = _
      rw [npSum_append]
      simp [npSum]
      ring
    · intro k
      show sumSigned k (st.terms ++ [ot]) = _
      rw [sumSigned_append]
      simp [sumSigned]
  | some my =>
    obtain ⟨l₁, l₂, el, hk, hl₂, hupd⟩ := lookupLast_decomp h
    have hres : mergeTerm st ot = { st with
        terms := updLast (keyOf ot)
          (Term.mk |signedCo my + signedCo ot|
            (copysign |my.var| (signedCo my + signedCo ot)))
          st.terms
        degree := st.degree -
          max 0 (max my.coefficient ot.coefficient
              - |signedCo my + signedCo ot|) *
            AllBooleanUpperBound my.var.natAbs } := by
      unfold mergeTerm
      rw [h]
      rfl
    set s := signedCo my + signedCo ot with hs
    set nt : Term := Term.mk |s| (copysign |my.var| s) with hnt
    have hmy_mem : my ∈ st.terms := by rw [el]; simp
    have hmyc : 0 ≤ my.coefficient := hnn my hmy_mem
    have hmyv : my.var ≠ 0 := hnz my hmy_mem
    have habs_a : |signedCo my| = my.coefficient := abs_signedCo hmyc
    have habs_b : |signedCo ot| = ot.coefficient := abs_signedCo hoc
    have hntkey : keyOf nt = keyOf ot := by
      rw [hnt]
      show (copysign |my.var| s).natAbs = keyOf ot
      rw [copysign_natAbs, Int.natAbs_abs, ← hk]
      rfl
    have hsc_nt : signedCo nt = s := signedCo_merge hmyv
    have hntv : nt.var ≠ 0 := by
      intro h0
      apply hmyv
      have h1 : nt.var.natAbs = my.var.natAbs := by
        rw [hnt]
        show (copysign |my.var| s).natAbs = my.var.natAbs
        rw [copysign_natAbs, Int.natAbs_abs]
      rw [h0] at h1
      exact Int.natAbs_eq_zero.mp h1.symm
    have hsplit := nodupKeys_split (el ▸ hnd)
    have hterms : (mergeTerm st ot).terms = l₁ ++ nt :: l₂ := by
      rw [hres]
      show updLast (keyOf ot) nt st.terms = l₁ ++ nt :: l₂
      exact hupd nt
    have hdeg : (mergeTerm st ot).degree = st.degree -
        max 0 (max my.coefficient ot.coefficient - |s|) := by
      rw [hres]
      show st.degree - _ * AllBooleanUpperBound my.var.natAbs = _
      rw [AllBooleanUpperBound, mul_one]
    have hflag : (mergeTerm st ot).dictBuilt = st.dictBuilt := by rw [hres]
    refine ⟨?_, ?_, ?_, ?_, ?_, hflag⟩
    · rw [hterms]
      intro t ht
      rcases List.mem_append.mp ht with h1 | h1
      · exact hnn t (by rw [el]; exact List.mem_append_left _ h1)
      · rcases List.mem_cons.mp h1 with h2 | h2
        · rw [h2, hnt]; exact abs_nonneg s
        · exact hnn t (by rw [el]; exact List.mem_append_right _ (List.mem_cons_of_mem _ h2))
    · rw [hterms, nodupKeys, List.map_append, List.map_cons, hntkey, ← hk]
      have h3 : nodupKeys (l₁ ++ my :: l₂) := el ▸ hnd
      rw [nodupKeys, List.map_append, List.map_cons] at h3
      exact h3
    · rw [hterms]
      intro t ht
      rcases List.mem_append.mp ht with h1 | h1
      · exact hnz t (by rw [el]; exact List.mem_append_left _ h1)
      · rcases List.mem_cons.mp h1 with h2 | h2
        · rw [h2]; exact hntv
        · exact hnz t (by rw [el]; exact List.mem_append_right _ (List.mem_cons_of_mem _ h2))
    · rw [hterms, hdeg]
      have hnpl : npSum st.terms = npSum l₁ + np (signedCo my) + npSum l₂ := by
        rw [el, npSum_append, npSum_cons]
        ring
      have hnpl2 : npSum (l₁ ++ nt :: l₂) = npSum l₁ + np s + npSum l₂ := by
        rw [npSum_append, npSum_cons, hsc_nt]
        ring
      have hcancel : max 0 (max my.coefficient ot.coefficient - |s|)
          = np (signedCo my) + np (signedCo ot) - np s := by
        rw [← habs_a, ← habs_b, hs]
        exact cancel_eq _ _
      rw [hnpl, hnpl2, hcancel]
      ring
    · intro k
      rw [hterms]
      have hsl : sumSigned k st.terms = sumSigned k l₁
          + (if keyOf my = k then signedCo my else 0) + sumSigned k l₂ := by
        rw [el, sumSigned_append, sumSigned_cons]
        ring
      rw [sumSigned_append, sumSigned_cons, hsl, hntkey, hk, hsc_nt]
      by_cases hke : keyOf ot = k
      · rw [if_pos hke, if_pos hke, if_pos hke, hs]
        ring
      · rw [if_neg hke, if_neg hke, if_neg hke]
        ring

theorem npSum_nil : npSum [] = 0 := rfl

theorem sumSigned_nil (k : Nat) : sumSigned k [] = 0 := rfl

/-- The whole `addWithFactor` loop over the (already scaled) other terms. -/
theorem mergeFold_spec (ots : List Term) :
    ∀ (st : Inequality),
      nonnegTerms st.terms → nodupKeys st.terms → noZeroVar st.terms →
      nonnegTerms ots → noZeroVar ots →
      nonnegTerms (ots.foldl mergeTerm st).terms ∧
      nodupKeys (ots.foldl mergeTerm st).terms ∧
      noZeroVar (ots.foldl mergeTerm st).terms ∧
      (ots.foldl mergeTerm st).degree - npSum (ots.foldl mergeTerm st).terms
        = st.degree - npSum st.terms - npSum ots ∧
      (∀ k, sumSigned k (ots.foldl mergeTerm st).terms
        = sumSigned k st.terms + sumSigned k ots) ∧
      (ots.foldl mergeTerm st).dictBuilt = st.dictBuilt := by
  induction ots with
  | nil =>
    intro st h1 h2 h3 _ _
    simp only [List.foldl_nil]
    refine ⟨h1, h2, h3, by rw [npSum_nil]; ring, fun k => ?_, trivial⟩
    rw [sumSigned_nil]
    ring
  | cons ot rest ih =>
    intro st h1 h2 h3 h4 h5
    have hoc : 0 ≤ ot.coefficient := h4 ot (List.mem_cons_self ot rest)
    have hov : ot.var ≠ 0 := h5 ot (List.mem_cons_self ot rest)
    obtain ⟨s1, s2, s3, s4, s5, s6⟩ := mergeTerm_spec h1 h2 h3 hoc hov
    have h4' : nonnegTerms rest := fun t ht => h4 t (List.mem_cons_of_mem _ ht)
    have h5' : noZeroVar rest := fun t ht => h5 t (List.mem_cons_of_mem _ ht)
    obtain ⟨r1, r2, r3, r4, r5, r6⟩ := ih (mergeTerm st ot) s1 s2 s3 h4' h5'
    rw [List.foldl_cons]
    refine ⟨r1, r2, r3, ?_, fun k => ?_, by rw [r6, s6]⟩
    · rw [r4, s4, npSum_cons]
      ring
    · rw [r5 k, s5 k, sumSigned_cons]
      ring

theorem npSum_scaled {f : Int} (hf : 0 ≤ f) (ots : List Term) :
    npSum (ots.map fun t => Term.mk (f * t.coefficient) t.var)
      = f * npSum ots := by
  induction ots with
  | nil => simp [npSum]
  | cons t rest ih =>
    rw [List.map_cons, npSum_cons, npSum_cons, ih]
    have h1 : signedCo (Term.mk (f * t.coefficient) t.var)
        = f * signedCo t := by
      show copysign (f * t.coefficient) t.var = f * copysign t.coefficient t.var
      exact copysign_mul_left hf _ _
    rw [h1, np_mul_left hf]
    ring

theorem sumSigned_scaled {f : Int} (hf : 0 ≤ f) (k : Nat) (ots : List Term) :
    sumSigned k (ots.map fun t => Term.mk (f * t.coefficient) t.var)
      = f * sumSigned k ots := by
  induction ots with
  | nil => simp [sumSigned]
  | cons t rest ih =>
    rw [List.map_cons, sumSigned_cons, sumSigned_cons, ih]
    have hkey : keyOf (Term.mk (f * t.coefficient) t.var) = keyOf t := rfl
    have h1 : signedCo (Term.mk (f * t.coefficient) t.var)
        = f * signedCo t := copysign_mul_left hf _ _
    rw [hkey, h1]
    by_cases hke : keyOf t = k
    · rw [if_pos hke, if_pos hke]; ring
    · rw [if_neg hke, if_neg hke]; ring

/-- Source `Inequality.addWithFactor` in terms of the abstraction: normal form
(plus non-zero variables) is preserved, and the semantic degree and the
signed coefficient map are both additive with weight `factor`. -/
theorem addWithFactor_spec {self : Inequality} {factor : Int}
    {oT : List Term} {oD : Int}
    (hnn : nonnegTerms self.terms) (hnd : nodupKeys self.terms)
    (hnz : noZeroVar self.terms)
    (honn : nonnegTerms oT) (honz : noZeroVar oT) (hf : 0 ≤ factor) :
    nonnegTerms (self.addWithFactor factor oT oD).terms ∧
    nodupKeys (self.addWithFactor factor oT oD).terms ∧
    noZeroVar (self.addWithFactor factor oT oD).terms ∧
    (self.addWithFactor factor oT oD).degree
        - npSum (self.addWithFactor factor oT oD).terms
      = (self.degree - npSum self.terms) + factor * (oD - npSum oT) ∧
    (∀ k, sumSigned k (self.addWithFactor factor oT oD).terms
      = sumSigned k self.terms + factor * sumSigned k oT) ∧
    (self.addWithFactor factor oT oD).dictBuilt
      = (self.dictBuilt || !oT.isEmpty) := by
  have hsc_nn : nonnegTerms (oT.map fun t => Term.mk (factor * t.coefficient) t.var) := by
    intro t ht
    simp only [List.mem_map] at ht
    obtain ⟨u, hu, rfl⟩ := ht
    exact mul_nonneg hf (honn u hu)
  have hsc_nz : noZeroVar (oT.map fun t => Term.mk (factor * t.coefficient) t.var) := by
    intro t ht
    simp only [List.mem_map] at ht
    obtain ⟨u, hu, rfl⟩ := ht
    exact honz u hu
  obtain ⟨r1, r2, r3, r4, r5, r6⟩ :=
    mergeFold_spec (oT.map fun t => Term.mk (factor * t.coefficient) t.var)
      { self with
        degree := self.degree + factor * oD
        dictBuilt := self.dictBuilt || !oT.isEmpty }
      hnn hnd hnz hsc_nn hsc_nz
  have heq : self.addWithFactor factor oT oD
      = (oT.map fun t => Term.mk (factor * t.coefficient) t.var).foldl
          mergeTerm
          { self with
            degree := self.degree + factor * oD
            dictBuilt := self.dictBuilt || !oT.isEmpty } := rfl
  simp only at r4 r5 r6
  refine ⟨heq ▸ r1, heq ▸ r2, heq ▸ r3, ?_, fun k => ?_, ?_⟩
  · rw [heq, r4, npSum_scaled hf]
    ring
  · rw [heq, r5 k, sumSigned_scaled hf]
  · rw [heq, r6]

-- `cleanTerms`, sorting, and how the signed coefficient map determines both.

theorem dedupKeys_go_of_nodup :
    ∀ (rest acc : List Term), nodupKeys (acc ++ rest) →
      rest.foldl
        (fun acc t =>
          if hasKey (keyOf t) acc then
            acc.map fun u => if keyOf u = keyOf t then t else u
          else acc ++ [t])
        acc = acc ++ rest
  | [], acc => by simp
  | t :: rest, acc => by
    intro h
    have hsp := nodupKeys_split h
    have hkey : hasKey (keyOf t) acc = false := by
      by_contra hc
      have : hasKey (keyOf t) acc = true := by
        revert hc
        cases hasKey (keyOf t) acc <;> simp
      obtain ⟨u, hu, he⟩ := hasKey_iff.mp this
      exact hsp.1 u hu he
    rw [List.foldl_cons, hkey]
    simp only [Bool.false_eq_true, if_false]
    have h2 : nodupKeys ((acc ++ [t]) ++ rest) := by
      simpa [nodupKeys] using h
    rw [dedupKeys_go_of_nodup rest (acc ++ [t]) h2]
    simp

theorem dedupKeys_of_nodup {l : List Term} (h : nodupKeys l) :
    dedupKeys l = l := by
  have := dedupKeys_go_of_nodup l [] (by simpa using h)
  simpa [dedupKeys] using this

theorem cleanTerms_of_nodup {l : List Term} (h : nodupKeys l) :
    cleanTerms l = l.filter fun t => t.coefficient != 0 := by
  rw [cleanTerms, dedupKeys_of_nodup h]

theorem nodupKeys_filter {l : List Term} (h : nodupKeys l)
    (p : Term → Bool) : nodupKeys (l.filter p) := by
  rw [nodupKeys]
  exact List.Nodup.sublist ((List.filter_sublist (p := p) l).map keyOf) h

theorem mem_cleanTerms_iff {l : List Term} (h : nodupKeys l) {t : Term} :
    t ∈ cleanTerms l ↔ t ∈ l ∧ t.coefficient ≠ 0 := by
  rw [cleanTerms_of_nodup h, List.mem_filter, bne_iff_ne, ne_eq]

theorem sumSigned_of_not_key {k : Nat} {l : List Term}
    (h : k ∉ l.map keyOf) : sumSigned k l = 0 := by
  apply sumSigned_eq_zero
  intro t ht he
  exact h (he ▸ List.mem_map_of_mem keyOf ht)

theorem sumSigned_of_mem {l : List Term} (h : nodupKeys l) :
    ∀ {t : Term}, t ∈ l → sumSigned (keyOf t) l = signedCo t := by
  induction l with
  | nil => intro t ht; cases ht
  | cons u rest ih =>
    intro t ht
    have hn : nodupKeys rest := by
      rw [nodupKeys, List.map_cons, List.nodup_cons] at h
      exact h.2
    have hu : keyOf u ∉ rest.map keyOf := by
      rw [nodupKeys, List.map_cons, List.nodup_cons] at h
      exact h.1
    rcases List.mem_cons.mp ht with rfl | h2
    · rw [sumSigned_cons, if_pos rfl, sumSigned_of_not_key hu]
      ring
    · have hne : keyOf u ≠ keyOf t := by
        intro he
        exact hu (he ▸ List.mem_map_of_mem keyOf h2)
      rw [sumSigned_cons, if_neg hne, ih hn h2]
      ring

theorem exists_key_of_sumSigned_ne {k : Nat} {l : List Term}
    (h : sumSigned k l ≠ 0) : ∃ t ∈ l, keyOf t = k := by
  by_contra hc
  push_neg at hc
  exact h (sumSigned_eq_zero hc)

theorem canon_eq {t : Term} (h0 : 0 ≤ t.coefficient)
    (h1 : t.coefficient ≠ 0) :
    Term.mk |signedCo t| (copysign (keyOf t : Int) (signedCo t)) = t := by
  have hc : 0 < t.coefficient := lt_of_le_of_ne h0 (Ne.symm h1)
  rcases lt_trichotomy t.var 0 with hv | hv | hv
  · have hs : signedCo t = -t.coefficient := by
      rw [signedCo, copysign_neg' _ hv, abs_of_nonneg h0]
    have hk : (keyOf t : Int) = -t.var := by rw [keyOf]; omega
    rw [hs, hk, copysign_neg' _ (by omega : -t.coefficient < 0)]
    have e1 : |(-t.coefficient)| = t.coefficient := by
      rw [abs_neg, abs_of_nonneg h0]
    have e2 : -|(-t.var)| = t.var := by
      rw [abs_of_nonneg (by omega : (0:Int) ≤ -t.var)]
      omega
    rw [e1, e2]
  · have hs : signedCo t = t.coefficient := by
      rw [signedCo, hv, copysign_nonneg _ le_rfl, abs_of_nonneg h0]
    have hk : (keyOf t : Int) = 0 := by rw [keyOf]; omega
    rw [hs, hk, abs_of_nonneg h0, copysign_nonneg _ h0]
    rw [abs_zero, ← hv]
  · have hs : signedCo t = t.coefficient := by
      rw [signedCo, copysign_nonneg _ hv.le, abs_of_nonneg h0]
    have hk : (keyOf t : Int) = t.var := by rw [keyOf]; omega
    rw [hs, hk, abs_of_nonneg h0, copysign_nonneg _ h0,
      abs_of_nonneg hv.le]

/-- Membership in the cleaned list is fully determined by the signed
coefficient map. -/
theorem mem_cleanTerms_canon {l : List Term} (hnn : nonnegTerms l)
    (hnd : nodupKeys l) {t : Term} :
    t ∈ cleanTerms l ↔
      sumSigned (keyOf t) l ≠ 0 ∧
        t = Term.mk |sumSigned (keyOf t) l|
          (copysign (keyOf t : Int) (sumSigned (keyOf t) l)) := by
  constructor
  · intro ht
    obtain ⟨hmem, hc⟩ := (mem_cleanTerms_iff hnd).mp ht
    have hσ : sumSigned (keyOf t) l = signedCo t := sumSigned_of_mem hnd hmem
    have h0 : 0 ≤ t.coefficient := hnn t hmem
    refine ⟨?_, ?_⟩
    · rw [hσ]
      intro he
      apply hc
      have h2 := abs_signedCo h0
      rw [he] at h2
      simpa using h2.symm
    · rw [hσ]
      exact (canon_eq h0 hc).symm
  · rintro ⟨hne, he⟩
    obtain ⟨u, hu, hk⟩ := exists_key_of_sumSigned_ne hne
    have hσt : sumSigned (keyOf t) l = signedCo u := by
      rw [← hk]
      exact sumSigned_of_mem hnd hu
    rw [hσt] at hne he
    have h0 : 0 ≤ u.coefficient := hnn u hu
    have hc : u.coefficient ≠ 0 := by
      intro hz
      apply hne
      rw [signedCo, hz]
      simp [copysign]
    have ht : t = u := by
      rw [he, ← hk]
      exact canon_eq h0 hc
    rw [ht]
    exact (mem_cleanTerms_iff hnd).mpr ⟨hu, hc⟩

theorem nodupKeys_of_perm {u v : List Term} (hp : u.Perm v)
    (h : nodupKeys u) : nodupKeys v :=
  (hp.map keyOf).nodup h

theorem sorted_lt_of_sorted_le {u : List Term}
    (hs : List.Sorted termLE u) (hn : nodupKeys u) :
    List.Sorted termLT u := by
  have h2 : List.Pairwise (fun a b : Term => keyOf a ≠ keyOf b) u := by
    rw [nodupKeys, List.Nodup, List.pairwise_map] at hn
    exact hn
  exact (hs.imp₂ fun _ _ hle hne => Nat.lt_of_le_of_ne hle hne) h2

theorem sortTerms_eq_of_perm {u v : List Term} (hp : u.Perm v)
    (hn : nodupKeys u) : sortTerms u = sortTerms v := by
  have hnv : nodupKeys v := nodupKeys_of_perm hp hn
  have hpu : (sortTerms u).Perm (sortTerms v) :=
    ((List.perm_insertionSort termLE u).trans hp).trans
      (List.perm_insertionSort termLE v).symm
  have hsu : List.Sorted termLE (sortTerms u) :=
    List.sorted_insertionSort termLE u
  have hsv : List.Sorted termLE (sortTerms v) :=
    List.sorted_insertionSort termLE v
  have hnu' : nodupKeys (sortTerms u) :=
    nodupKeys_of_perm (List.perm_insertionSort termLE u).symm hn
  have hnv' : nodupKeys (sortTerms v) :=
    nodupKeys_of_perm (List.perm_insertionSort termLE v).symm hnv
  exact List.eq_of_perm_of_sorted hpu
    (sorted_lt_of_sorted_le hsu hnu') (sorted_lt_of_sorted_le hsv hnv')

theorem sum_over_keys_eq {K₁ K₂ : List Nat} (h₁ : K₁.Nodup)
    (h₂ : K₂.Nodup) (g : Nat → Int)
    (hz₁ : ∀ k ∈ K₁, k ∉ K₂ → g k = 0)
    (hz₂ : ∀ k ∈ K₂, k ∉ K₁ → g k = 0) :
    (K₁.map g).sum = (K₂.map g).sum := by
  rw [← List.sum_toFinset g h₁, ← List.sum_toFinset g h₂]
  have hsub₁ : K₁.toFinset ∩ K₂.toFinset ⊆ K₁.toFinset :=
    Finset.inter_subset_left
  have hsub₂ : K₁.toFinset ∩ K₂.toFinset ⊆ K₂.toFinset :=
    Finset.inter_subset_right
  rw [← Finset.sum_subset hsub₁, ← Finset.sum_subset hsub₂]
  · intro x hx hx2
    simp only [Finset.mem_inter, List.mem_toFinset] at hx hx2
    exact hz₂ x hx (fun hc => hx2 ⟨hc, hx⟩)
  · intro x hx hx2
    simp only [Finset.mem_inter, List.mem_toFinset] at hx hx2
    exact hz₁ x hx (fun hc => hx2 ⟨hx, hc⟩)

theorem npSum_by_keys {l : List Term} (h : nodupKeys l) :
    npSum l = ((l.map keyOf).map fun k => np (sumSigned k l)).sum := by
  rw [npSum, List.map_map]
  congr 1
  apply List.map_congr_left
  intro t ht
  show np (signedCo t) = np (sumSigned (keyOf t) l)
  rw [sumSigned_of_mem h ht]

/-- The degree of a constraint is determined by its semantic degree and its
signed coefficient map (for normal-form term lists). -/
theorem degree_of_spec {c₁ c₂ : Inequality}
    (h1d : nodupKeys c₁.terms) (h2d : nodupKeys c₂.terms)
    (hrd : rdeg c₁ = rdeg c₂)
    (hσ : ∀ k, sumSigned k c₁.terms = sumSigned k c₂.terms) :
    c₁.degree = c₂.degree := by
  have hnp : npSum c₁.terms = npSum c₂.terms := by
    rw [npSum_by_keys h1d, npSum_by_keys h2d]
    have he : ((c₂.terms.map keyOf).map fun k => np (sumSigned k c₂.terms)).sum
        = ((c₂.terms.map keyOf).map fun k => np (sumSigned k c₁.terms)).sum := by
      congr 1
      apply List.map_congr_left
      intro k _
      rw [hσ k]
    rw [he]
    apply sum_over_keys_eq h1d h2d
    · intro k _ hk2
      rw [hσ k, sumSigned_of_not_key hk2]
      rfl
    · intro k _ hk1
      rw [sumSigned_of_not_key hk1]
      rfl
  rw [rdeg, rdeg] at hrd
  omega

/-- Structural equality (contract both sides, compare modulo ordering)
follows from equality of the abstraction, for normal-form constraints. -/
theorem eqAbs_of_spec {c₁ c₂ : Inequality}
    (h1n : nonnegTerms c₁.terms) (h1d : nodupKeys c₁.terms)
    (h2n : nonnegTerms c₂.terms) (h2d : nodupKeys c₂.terms)
    (hrd : rdeg c₁ = rdeg c₂)
    (hσ : ∀ k, sumSigned k c₁.terms = sumSigned k c₂.terms) :
    eqAbs c₁ c₂ := by
  refine ⟨degree_of_spec h1d h2d hrd hσ, ?_⟩
  have hcn₁ : nodupKeys (cleanTerms c₁.terms) := by
    rw [cleanTerms_of_nodup h1d]
    exact nodupKeys_filter h1d _
  have hcn₂ : nodupKeys (cleanTerms c₂.terms) := by
    rw [cleanTerms_of_nodup h2d]
    exact nodupKeys_filter h2d _
  have hmemiff : ∀ t, t ∈ cleanTerms c₁.terms ↔ t ∈ cleanTerms c₂.terms := by
    intro t
    rw [mem_cleanTerms_canon h1n h1d, mem_cleanTerms_canon h2n h2d, hσ]
  have hnodup₁ : (cleanTerms c₁.terms).Nodup := List.Nodup.of_map keyOf hcn₁
  have hnodup₂ : (cleanTerms c₂.terms).Nodup := List.Nodup.of_map keyOf hcn₂
  have hperm : (cleanTerms c₁.terms).Perm (cleanTerms c₂.terms) :=
    (List.perm_ext_iff_of_nodup hnodup₁ hnodup₂).mpr hmemiff
  exact sortTerms_eq_of_perm hperm hcn₁

theorem term_eta (t : Term) : Term.mk t.coefficient t.var = t := rfl

theorem fdiv_mul_undo {d : Int} (hd : 1 ≤ d) (a : Int) :
    (a * d + d - 1).fdiv d = a := by
  rw [Int.fdiv_eq_ediv _ (by omega)]
  have h1 : a * d + d - 1 = (d - 1) + a * d := by ring
  rw [h1, Int.add_mul_ediv_right _ _ (by omega : d ≠ 0),
    Int.ediv_eq_zero_of_lt (by omega) (by omega)]
  ring

theorem fdiv_ceil_nonneg {c d : Int} (hc : 0 ≤ c) (hd : 1 ≤ d) :
    0 ≤ (c + d - 1).fdiv d := by
  rw [Int.fdiv_eq_ediv _ (by omega)]
  exact Int.ediv_nonneg (by omega) (by omega)

theorem mkLazy_terms (c : Inequality) : (mkLazy c).terms = c.terms := by
  rw [LazyInequality.terms]
  show List.map (mkLazy c).applyTerm c.terms = c.terms
  have h : ∀ t ∈ c.terms, (mkLazy c).applyTerm t = t := by
    intro t _
    rw [LazyInequality.applyTerm, LazyInequality.apply]
    show Term.mk (List.foldl _ t.coefficient []) t.var = t
    rw [List.foldl_nil, term_eta]
  rw [List.map_congr_left h, List.map_id']

theorem mkLazy_degree (c : Inequality) : (mkLazy c).degree = c.degree := rfl

theorem mkInequality_of_nonneg {ts : List Term} (h : nonnegTerms ts)
    (d : Int) : mkInequality ts d = ⟨ts, d, false⟩ := by
  rw [mkInequality]
  have h1 : (ts.map fun t =>
      if t.coefficient < 0 then Term.mk (-t.coefficient) (-t.var) else t) = ts := by
    have h2 : ∀ t ∈ ts, (if t.coefficient < 0 then
        Term.mk (-t.coefficient) (-t.var) else t) = t := by
      intro t ht
      rw [if_neg (not_lt.mpr (h t ht))]
    rw [List.map_congr_left h2, List.map_id']
  have h3 : (ts.map fun t =>
      if t.coefficient < 0 then
        AllBooleanUpperBound (t.var.natAbs) * (-t.coefficient)
      else 0).sum = 0 := by
    apply List.sum_eq_zero
    intro x hx
    simp only [List.mem_map] at hx
    obtain ⟨t, ht, rfl⟩ := hx
    rw [if_neg (not_lt.mpr (h t ht))]
  rw [h1, h3, add_zero]

/-- The view of a stack element agrees with the constraint it denotes, as
long as the exposed coefficients are non-negative (materialization
normalizes, which is then the identity). -/
theorem toInequality_view {e : StackElem} (h : nonnegTerms e.viewTerms) :
    e.toInequality.terms = e.viewTerms ∧
      e.toInequality.degree = e.viewDegree := by
  cases e with
  | mat c => exact ⟨rfl, rfl⟩
  | lazy L =>
    show (mkInequality L.terms L.degree).terms = L.terms ∧
      (mkInequality L.terms L.degree).degree = L.degree
    rw [mkInequality_of_nonneg (show nonnegTerms L.terms from h)]
    exact ⟨rfl, rfl⟩

theorem signedCo_zero {t : Term} (h : t.coefficient = 0) : signedCo t = 0 := by
  rw [signedCo, h, copysign]
  split <;> simp

theorem npSum_filter (l : List Term) :
    npSum (l.filter fun t => t.coefficient != 0) = npSum l := by
  induction l with
  | nil => rfl
  | cons t rest ih =>
    by_cases h : t.coefficient = 0
    · rw [List.filter_cons, if_neg (by simp [h]), npSum_cons, ih,
        signedCo_zero h, np_zero, zero_add]
    · rw [List.filter_cons, if_pos (by simpa using h), npSum_cons,
        npSum_cons, ih]

theorem sumSigned_filter (k : Nat) (l : List Term) :
    sumSigned k (l.filter fun t => t.coefficient != 0) = sumSigned k l := by
  induction l with
  | nil => rfl
  | cons t rest ih =>
    by_cases h : t.coefficient = 0
    · rw [List.filter_cons, if_neg (by simp [h]), sumSigned_cons, ih,
        signedCo_zero h]
      simp
    · rw [List.filter_cons, if_pos (by simpa using h), sumSigned_cons,
        sumSigned_cons, ih]

/-- Source `contract` preserves normal form and the whole abstraction. -/
theorem contract_spec {c : Inequality} (hnn : nonnegTerms c.terms)
    (hnd : nodupKeys c.terms) (hnz : noZeroVar c.terms) :
    nonnegTerms c.contract.terms ∧ nodupKeys c.contract.terms ∧
    noZeroVar c.contract.terms ∧ rdeg c.contract = rdeg c ∧
    ∀ k, sumSigned k c.contract.terms = sumSigned k c.terms := by
  by_cases h : c.dictBuilt
  · have hc : c.contract
        = ⟨cleanTerms c.terms, c.degree, false⟩ := by
      rw [Inequality.contract, if_pos h]
    rw [hc]
    show nonnegTerms (cleanTerms c.terms) ∧ nodupKeys (cleanTerms c.terms) ∧
      noZeroVar (cleanTerms c.terms) ∧
      c.degree - npSum (cleanTerms c.terms) = rdeg c ∧
      ∀ k, sumSigned k (cleanTerms c.terms) = sumSigned k c.terms
    rw [cleanTerms_of_nodup hnd]
    refine ⟨?_, nodupKeys_filter hnd _, ?_, ?_, ?_⟩
    · intro t ht
      exact hnn t (List.mem_of_mem_filter ht)
    · intro t ht
      exact hnz t (List.mem_of_mem_filter ht)
    · rw [npSum_filter]
      rfl
    · intro k
      exact sumSigned_filter k c.terms
  · have hc : c.contract = c := by
      rw [Inequality.contract, if_neg h]
    rw [hc]
    exact ⟨hnn, hnd, hnz, rfl, fun _ => rfl⟩

theorem mkInequality_keys (ts : List Term) (d : Int) :
    (mkInequality ts d).terms.map keyOf = ts.map keyOf := by
  show (ts.map _).map keyOf = ts.map keyOf
  rw [List.map_map]
  apply List.map_congr_left
  intro t _
  show keyOf (if t.coefficient < 0 then Term.mk (-t.coefficient) (-t.var) else t)
    = keyOf t
  by_cases h : t.coefficient < 0
  · rw [if_pos h, keyOf, keyOf]
    exact Int.natAbs_neg t.var
  · rw [if_neg h]

/-- Construction (with normalization) yields normal form, provided the input
carries each absolute variable index at most once. -/
theorem mkInequality_NF {ts : List Term} (hnd : nodupKeys ts)
    (hnz : noZeroVar ts) (d : Int) :
    NF (mkInequality ts d) ∧ noZeroVar (mkInequality ts d).terms := by
  refine ⟨⟨?_, ?_⟩, ?_⟩
  · intro t ht
    simp only [mkInequality, List.mem_map] at ht
    obtain ⟨u, hu, rfl⟩ := ht
    by_cases h : u.coefficient < 0
    · rw [if_pos h]
      show 0 ≤ -u.coefficient
      omega
    · rw [if_neg h]
      omega
  · rw [nodupKeys, mkInequality_keys]
    exact hnd
  · intro t ht
    simp only [mkInequality, List.mem_map] at ht
    obtain ⟨u, hu, rfl⟩ := ht
    have := hnz u hu
    by_cases h : u.coefficient < 0
    · rw [if_pos h]
      show -u.var ≠ 0
      omega
    · rw [if_neg h]
      exact this

theorem saturate_NF {c : Inequality} (hnn : nonnegTerms c.terms)
    (hnd : nodupKeys c.terms) (hnz : noZeroVar c.terms)
    (hdeg : 0 ≤ c.degree) :
    NF c.saturate ∧ noZeroVar c.saturate.terms := by
  refine ⟨⟨?_, ?_⟩, ?_⟩
  · intro t ht
    simp only [Inequality.saturate, List.mem_map] at ht
    obtain ⟨u, hu, rfl⟩ := ht
    exact le_min (hnn u hu) hdeg
  · show nodupKeys (c.terms.map _)
    rw [nodupKeys, List.map_map]
    have h : (keyOf ∘ fun t => Term.mk (min t.coefficient c.degree) t.var)
        = keyOf := rfl
    rw [h]
    exact hnd
  · intro t ht
    simp only [Inequality.saturate, List.mem_map] at ht
    obtain ⟨u, hu, rfl⟩ := ht
    exact hnz u hu

theorem divide_NF {c : Inequality} {d : Int} (hnn : nonnegTerms c.terms)
    (hnd : nodupKeys c.terms) (hnz : noZeroVar c.terms) (hd : 1 ≤ d) :
    NF (c.divide d) ∧ noZeroVar (c.divide d).terms := by
  refine ⟨⟨?_, ?_⟩, ?_⟩
  · intro t ht
    simp only [Inequality.divide, List.mem_map] at ht
    obtain ⟨u, hu, rfl⟩ := ht
    exact fdiv_ceil_nonneg (hnn u hu) hd
  · show nodupKeys (c.terms.map _)
    rw [nodupKeys, List.map_map]
    exact hnd
  · intro t ht
    simp only [Inequality.divide, List.mem_map] at ht
    obtain ⟨u, hu, rfl⟩ := ht
    exact hnz u hu

theorem multiply_NF {c : Inequality} {f : Int} (hnn : nonnegTerms c.terms)
    (hnd : nodupKeys c.terms) (hnz : noZeroVar c.terms) (hf : 0 ≤ f) :
    NF (c.multiply f) ∧ noZeroVar (c.multiply f).terms := by
  refine ⟨⟨?_, ?_⟩, ?_⟩
  · intro t ht
    simp only [Inequality.multiply, List.mem_map] at ht
    obtain ⟨u, hu, rfl⟩ := ht
    exact mul_nonneg (hnn u hu) hf
  · show nodupKeys (c.terms.map _)
    rw [nodupKeys, List.map_map]
    exact hnd
  · intro t ht
    simp only [Inequality.multiply, List.mem_map] at ht
    obtain ⟨u, hu, rfl⟩ := ht
    exact hnz u hu

theorem eqPy_refl (c : Inequality) : c.eqPy c := ⟨rfl, rfl⟩

-- Lazy pipeline bookkeeping.

theorem getD_append_lt {l l2 : List Int} {i : Nat} (h : i < l.length) :
    (l ++ l2).getD i 0 = l.getD i 0 := by
  induction l generalizing i with
  | nil => cases h
  | cons a rest ih =>
    cases i with
    | zero => rfl
    | succ j =>
      show (rest ++ l2).getD j 0 = rest.getD j 0
      exact ih (by simpa using h)

theorem getD_append_self (l : List Int) (x : Int) :
    (l ++ [x]).getD l.length 0 = x := by
  induction l with
  | nil => rfl
  | cons a rest ih => exact ih

theorem wfOps_bound {L : LazyInequality} (h : L.wfOps = true) :
    ∀ i, LazyOp.sat i ∈ L.operations → i < L.degrees.length := by
  intro i hi
  rw [LazyInequality.wfOps, List.all_eq_true] at h
  have := h _ hi
  simpa using this

theorem foldl_applyOne_append {degrees ds2 : List Int} {ops : List LazyOp}
    (h : ∀ i, LazyOp.sat i ∈ ops → i < degrees.length) :
    ∀ v, ops.foldl (applyOne (degrees ++ ds2)) v
      = ops.foldl (applyOne degrees) v := by
  induction ops with
  | nil => intro v; rfl
  | cons op rest ih =>
    intro v
    have h1 : applyOne (degrees ++ ds2) v op = applyOne degrees v op := by
      cases op with
      | sat i =>
        show min ((degrees ++ ds2).getD i 0) v = min (degrees.getD i 0) v
        rw [getD_append_lt (h i (List.mem_cons_self _ _))]
      | div d => rfl
      | mul f => rfl
    rw [List.foldl_cons, List.foldl_cons, h1]
    exact ih (fun i hi => h i (List.mem_cons_of_mem _ hi)) _

/-- After recording a saturation, the lazy apply function is
`min(cached degree, previous apply)`. -/
theorem lazy_saturate_apply {L : LazyInequality} (h : L.wfOps = true)
    (v : Int) : L.saturate.apply v = min L.degree (L.apply v) := by
  rw [LazyInequality.saturate, LazyInequality.apply]
  show (L.operations ++ [LazyOp.sat ((L.degrees ++ [L.apply L.constraint.degree]).length - 1)]).foldl
      (applyOne (L.degrees ++ [L.apply L.constraint.degree])) v = _
  rw [List.foldl_append]
  rw [foldl_applyOne_append (wfOps_bound h)]
  show applyOne (L.degrees ++ [L.apply L.constraint.degree]) (L.apply v)
      (LazyOp.sat ((L.degrees ++ [L.apply L.constraint.degree]).length - 1)) = _
  have hlen : (L.degrees ++ [L.apply L.constraint.degree]).length - 1
      = L.degrees.length := by simp
  rw [hlen]
  show min ((L.degrees ++ [L.apply L.constraint.degree]).getD L.degrees.length 0)
      (L.apply v) = _
  rw [getD_append_self]
  rfl

theorem Inequality_ext {x y : Inequality} (h1 : x.terms = y.terms)
    (h2 : x.degree = y.degree) (h3 : x.dictBuilt = y.dictBuilt) : x = y := by
  cases x
  cases y
  simp_all

/-- C1 (amended): `Inequality.saturate` replaces every coefficient by
`min(coefficient, degree)` — with no clamping of the degree at 0 — and hence
every resulting coefficient is `≤ max(0, degree)`; after recording a
saturation, a `LazyInequality` exposes `min(cached degree, coefficient)` for
every coefficient, hence also `≤ max(0, exposed degree)`. -/
theorem claimC1 :
    (∀ c : Inequality, c.saturate.terms
      = c.terms.map fun t => Term.mk (min t.coefficient c.degree) t.var) ∧
    (∀ c : Inequality, ∀ t ∈ c.saturate.terms,
      t.coefficient ≤ max 0 c.degree) ∧
    (∀ L : LazyInequality, L.wfOps = true →
      L.saturate.terms
        = L.terms.map fun t => Term.mk (min L.degree t.coefficient) t.var) ∧
    (∀ L : LazyInequality, L.wfOps = true →
      ∀ t ∈ L.saturate.terms, t.coefficient ≤ max 0 L.degree) := by
  have hlazy : ∀ L : LazyInequality, L.wfOps = true →
      L.saturate.terms
        = L.terms.map fun t => Term.mk (min L.degree t.coefficient) t.var := by
    intro L h
    rw [LazyInequality.terms, LazyInequality.terms, List.map_map]
    have hbase : L.saturate.constraint = L.constraint := rfl
    rw [hbase]
    apply List.map_congr_left
    intro t _
    show L.saturate.applyTerm t
      = Term.mk (min L.degree (L.applyTerm t).coefficient) (L.applyTerm t).var
    rw [LazyInequality.applyTerm, LazyInequality.applyTerm,
      lazy_saturate_apply h]
  refine ⟨fun c => rfl, ?_, hlazy, ?_⟩
  · intro c t ht
    simp only [Inequality.saturate, List.mem_map] at ht
    obtain ⟨u, _, rfl⟩ := ht
    show min u.coefficient c.degree ≤ max 0 c.degree
    exact le_trans (min_le_right _ _) (le_max_right _ _)
  · intro L h t ht
    rw [hlazy L h] at ht
    simp only [List.mem_map] at ht
    obtain ⟨u, _, rfl⟩ := ht
    show min L.degree u.coefficient ≤ max 0 L.degree
    exact le_trans (min_le_left _ _) (le_max_right _ _)

/-- C1 counterexample: saturating `+3·x1 ≥ -2` stores coefficient `-2`;
the claim's `min(coefficient, max(0, degree))` would give `0`. -/
theorem claimC1_cex :
    (mkInequality [Term.mk 3 1] (-2)).saturate.terms = [Term.mk (-2) 1] ∧
    ¬ (∀ t ∈ (mkInequality [Term.mk 3 1] (-2)).saturate.terms,
        t.coefficient = min 3 (max 0 (-2 : Int))) := by
  decide

/-- C1 witness: the amended statement applied to a concrete lazy constraint. -/
theorem claimC1_wit :
    (mkLazy (mkInequality [Term.mk 3 1] 2)).wfOps = true ∧
    (∀ t ∈ (mkLazy (mkInequality [Term.mk 3 1] 2)).saturate.terms,
      t.coefficient ≤ max 0 (mkLazy (mkInequality [Term.mk 3 1] 2)).degree) :=
  ⟨by decide, claimC1.2.2.2 (mkLazy (mkInequality [Term.mk 3 1] 2)) (by decide)⟩

/-- C2 (amended): the two normal-form invariants hold for the output of every
public operation, provided construction receives each absolute variable index
at most once (the constructor does not merge duplicates) and saturation is
applied to a constraint with non-negative degree (the source clamps at the
degree, not at `max(0, degree)`). -/
theorem claimC2 :
    (∀ (ts : List Term) (d : Int), nodupKeys ts → noZeroVar ts →
      NF (mkInequality ts d)) ∧
    (∀ (a : Inequality) (f : Int) (oT : List Term) (oD : Int),
      NF a → noZeroVar a.terms → nonnegTerms oT → noZeroVar oT → 1 ≤ f →
      NF (a.addWithFactor f oT oD)) ∧
    (∀ c : Inequality, NF c → noZeroVar c.terms → 0 ≤ c.degree →
      NF c.saturate) ∧
    (∀ (c : Inequality) (d : Int), NF c → noZeroVar c.terms → 1 ≤ d →
      NF (c.divide d)) ∧
    (∀ (c : Inequality) (f : Int), NF c → noZeroVar c.terms → 1 ≤ f →
      NF (c.multiply f)) ∧
    (∀ c : Inequality, NF c → noZeroVar c.terms → NF c.contract) := by
  refine ⟨?_, ?_, ?_, ?_, ?_, ?_⟩
  · intro ts d hnd hnz
    exact (mkInequality_NF hnd hnz d).1
  · intro a f oT oD ha haz honn honz hf
    obtain ⟨r1, r2, _, _, _, _⟩ :=
      addWithFactor_spec ha.1 ha.2 haz honn honz (by omega : (0:Int) ≤ f)
    exact ⟨r1, r2⟩
  · intro c hc hcz hdeg
    exact (saturate_NF hc.1 hc.2 hcz hdeg).1
  · intro c d hc hcz hd
    exact (divide_NF hc.1 hc.2 hcz hd).1
  · intro c f hc hcz hf
    exact (multiply_NF hc.1 hc.2 hcz (by omega : (0:Int) ≤ f)).1
  · intro c hc hcz
    obtain ⟨r1, r2, _, _, _⟩ := contract_spec hc.1 hc.2 hcz
    exact ⟨r1, r2⟩

/-- C2 counterexample: saturation with negative degree produces a negative
coefficient, and construction keeps two terms on the same variable. -/
theorem claimC2_cex :
    ¬ nonnegTerms (mkInequality [Term.mk 1 1] (-1)).saturate.terms ∧
    ¬ nodupKeys (mkInequality [Term.mk 2 1, Term.mk 3 1] 0).terms := by
  decide

/-- C2 witness: the amended invariant preservation at a concrete saturation. -/
theorem claimC2_wit :
    NF (mkInequality [Term.mk 2 1] 1) ∧
    noZeroVar (mkInequality [Term.mk 2 1] 1).terms ∧
    0 ≤ (mkInequality [Term.mk 2 1] 1).degree ∧
    NF (mkInequality [Term.mk 2 1] 1).saturate :=
  ⟨by decide, by decide, by decide,
    claimC2.2.2.1 (mkInequality [Term.mk 2 1] 1) (by decide) (by decide)
      (by decide)⟩

/-- C3 (code bug): the fast-path `parse` of the reverse-polish rule performs
no stack-size check at all (the guard lives only in `getParser`, which
`parse` consults only after an `int()` failure).  The line `p 1 +` is
accepted by `parse` although the guard rejects it, and `compute` then pops
an empty stack (IndexError), modelled by `none`. -/
theorem claimC3 :
    rpnParse ["1", "+"] = some [RTok.num 1, RTok.add] ∧
    rpnGuard [RTok.num 1, RTok.add] = false ∧
    rpnRun [RTok.num 1, RTok.add] [] [mkInequality [Term.mk 1 1] 1] = none := by
  decide

/-- C4 (code bug): the RPN number token admits `0` (`[0-9]+`, and the
fast-path `parse` even any signed integer), so `p 1 0 d` is accepted — by
the fast path and by the `getParser` guard alike — and evaluation records a
division by zero in the lazy pipeline (a materialized constraint would raise
ZeroDivisionError). -/
theorem claimC4 :
    rpnParse ["1", "0", "d"]
      = some [RTok.num 1, RTok.div, RTok.num 0] ∧
    rpnGuard [RTok.num 1, RTok.num 0, RTok.div] = true ∧
    rpnRun [RTok.num 1, RTok.div, RTok.num 0] []
        [mkInequality [Term.mk 1 1] 1]
      = some (.lazy ⟨mkInequality [Term.mk 1 1] 1, [LazyOp.div 0], []⟩) := by
  decide

/-- C5 (code bug): `IsContradiction.parse` only checks that the line has
exactly two words and that the first parses as an integer; the required
trailing `0` is never examined (while the class's own `getParser` rejects
anything other than `0` there).  The line `c 1 5` parses to the rule with
antecedent id 1. -/
theorem claimC5 :
    icParse ["1", "5"] = some 1 ∧ icGuard ["1", "5"] = false := by
  decide

/-- C7 (confirmed): addition with factor 1 is commutative up to the
structural equality that contracts both sides and compares degree and the
terms modulo ordering, for normalized constraints. -/
theorem claimC7 (a b : Inequality)
    (ha : NF a) (haz : noZeroVar a.terms)
    (hb : NF b) (hbz : noZeroVar b.terms) :
    eqAbs (a.addWithFactor 1 b.terms b.degree)
      (b.addWithFactor 1 a.terms a.degree) := by
  obtain ⟨a1, a2, _, a4, a5, _⟩ :=
    @addWithFactor_spec a 1 b.terms b.degree
      ha.1 ha.2 haz hb.1 hbz (by omega)
  obtain ⟨b1, b2, _, b4, b5, _⟩ :=
    @addWithFactor_spec b 1 a.terms a.degree
      hb.1 hb.2 hbz ha.1 haz (by omega)
  apply eqAbs_of_spec a1 a2 b1 b2
  · rw [rdeg, rdeg, a4, b4]
    ring
  · intro k
    rw [a5 k, b5 k]
    ring

/-- C7 witness: commutativity at a concrete pair of normalized constraints
(with a shared variable, exercising the merge path). -/
theorem claimC7_wit :
    NF (mkInequality [Term.mk 2 1, Term.mk 1 2] 1) ∧
    noZeroVar (mkInequality [Term.mk 2 1, Term.mk 1 2] 1).terms ∧
    NF (mkInequality [Term.mk 3 (-1), Term.mk 5 3] 2) ∧
    noZeroVar (mkInequality [Term.mk 3 (-1), Term.mk 5 3] 2).terms ∧
    eqAbs
      ((mkInequality [Term.mk 2 1, Term.mk 1 2] 1).addWithFactor 1
        (mkInequality [Term.mk 3 (-1), Term.mk 5 3] 2).terms
        (mkInequality [Term.mk 3 (-1), Term.mk 5 3] 2).degree)
      ((mkInequality [Term.mk 3 (-1), Term.mk 5 3] 2).addWithFactor 1
        (mkInequality [Term.mk 2 1, Term.mk 1 2] 1).terms
        (mkInequality [Term.mk 2 1, Term.mk 1 2] 1).degree) :=
  ⟨by decide, by decide, by decide, by decide,
    claimC7 (mkInequality [Term.mk 2 1, Term.mk 1 2] 1)
      (mkInequality [Term.mk 3 (-1), Term.mk 5 3] 2)
      (by decide) (by decide) (by decide) (by decide)⟩

/-- C8 (confirmed): multiplying by `d ≥ 1` and then ceiling-dividing by `d`
is the identity on every coefficient and on the degree, hence the result is
structurally equal (it is even definitionally identical) to the original. -/
theorem claimC8 (c : Inequality) (d : Int)
    (_hnn : nonnegTerms c.terms) (hd : 1 ≤ d) :
    ((c.multiply d).divide d).eqPy c := by
  have hterms : ((c.multiply d).divide d).terms = c.terms := by
    show (c.terms.map _).map _ = c.terms
    rw [List.map_map]
    have h : ∀ t ∈ c.terms,
        ((fun t : Term => Term.mk ((t.coefficient + d - 1).fdiv d) t.var) ∘
          fun t : Term => Term.mk (t.coefficient * d) t.var) t = t := by
      intro t _
      show Term.mk ((t.coefficient * d + d - 1).fdiv d) t.var = t
      rw [fdiv_mul_undo hd, term_eta]
    rw [List.map_congr_left h, List.map_id']
  have hdeg : ((c.multiply d).divide d).degree = c.degree := by
    show (c.degree * d + d - 1).fdiv d = c.degree
    exact fdiv_mul_undo hd _
  rw [Inequality_ext hterms hdeg rfl]
  exact eqPy_refl c

/-- C8 witness: the round trip at a concrete constraint and divisor. -/
theorem claimC8_wit :
    nonnegTerms (mkInequality [Term.mk 2 1, Term.mk 3 (-2)] (-1)).terms ∧
    (1:Int) ≤ 3 ∧
    (((mkInequality [Term.mk 2 1, Term.mk 3 (-2)] (-1)).multiply 3).divide
      3).eqPy (mkInequality [Term.mk 2 1, Term.mk 3 (-2)] (-1)) :=
  ⟨by decide, by decide,
    claimC8 (mkInequality [Term.mk 2 1, Term.mk 3 (-2)] (-1)) 3
      (by decide) (by decide)⟩

/-- C9 (amended): for `c ≥ 1` construction from `(-c, v)` with degree `d`
equals construction from `(c, -v)` with degree `d + c·ub(|v|)`, under the
code's `__eq__`; the negation rewrite of `normalize` is the sole
transformation.  (`c = 0` fails: the constructor leaves the zero term's
literal untouched and `__eq__` does not contract fresh constraints.) -/
theorem claimC9 (c v d : Int) (hc : 1 ≤ c) (_hv : v ≠ 0) :
    (mkInequality [Term.mk (-c) v] d).eqPy
      (mkInequality [Term.mk c (-v)]
        (d + c * AllBooleanUpperBound v.natAbs)) := by
  have e1 : mkInequality [Term.mk (-c) v] d
      = ⟨[Term.mk c (-v)], d + c, false⟩ := by
    rw [mkInequality]
    apply Inequality_ext
    · show [if (-c) < 0 then Term.mk (-(-c)) (-v) else Term.mk (-c) v] = _
      rw [if_pos (by omega : -c < 0), neg_neg]
    · show d + ((if (-c) < 0 then
          AllBooleanUpperBound (v.natAbs) * (-(-c)) else 0) + 0) = d + c
      rw [if_pos (by omega : -c < 0), neg_neg, AllBooleanUpperBound, one_mul,
        add_zero]
    · rfl
  have e2 : mkInequality [Term.mk c (-v)]
        (d + c * AllBooleanUpperBound v.natAbs)
      = ⟨[Term.mk c (-v)], d + c, false⟩ := by
    rw [mkInequality_of_nonneg]
    · show (⟨[Term.mk c (-v)], d + c * AllBooleanUpperBound v.natAbs, false⟩ :
        Inequality) = _
      refine Inequality_ext rfl ?_ rfl
      show d + c * AllBooleanUpperBound v.natAbs = d + c
      rw [AllBooleanUpperBound, mul_one]
    · intro t ht
      rw [List.mem_singleton.mp ht]
      show 0 ≤ c
      omega
  rw [e1, e2]
  exact eqPy_refl _

/-- C9 counterexample: at `c = 0` the two constructions are not equal under
the code's `__eq__` (the literal's sign differs and nothing contracts). -/
theorem claimC9_cex :
    ¬ (mkInequality [Term.mk (-0) 1] 0).eqPy
        (mkInequality [Term.mk 0 (-1)]
          (0 + 0 * AllBooleanUpperBound (1:Int).natAbs)) := by
  decide

/-- C9 witness: the amended statement at `c = 2`, `v = 1`, `d = 0`. -/
theorem claimC9_wit :
    (1:Int) ≤ 2 ∧ (1:Int) ≠ 0 ∧
    (mkInequality [Term.mk (-2) 1] 0).eqPy
      (mkInequality [Term.mk 2 (-1)]
        (0 + 2 * AllBooleanUpperBound (1:Int).natAbs)) :=
  ⟨by decide, by decide, claimC9 2 1 0 (by decide) (by decide)⟩

/-- C10 (confirmed): the `f` rule's parse entry point (the wrapper delegating
to `LoadFormula.parse`) accepts any integer claimed count without comparing
it to the formula's size (`__init__` discards it), and `compute` returns the
stored formula unchanged. -/
theorem claimC10 (formula : List Inequality) (s1 s2 : String) (n : Int)
    (h : pyInt s1 = some n) :
    lfWrapperParse [s1, s2] formula = some formula ∧
      lfCompute formula = formula := by
  constructor
  · rw [lfWrapperParse, lfParse, h]
    rfl
  · rfl

/-- C10 witness: a claimed count of 5 on a one-constraint formula parses and
computes the formula unchanged. -/
theorem claimC10_wit :
    pyInt "5" = some 5 ∧
    (lfWrapperParse ["5", "0"] [mkInequality [] 0]
        = some [mkInequality [] 0] ∧
      lfCompute [mkInequality [] 0] = [mkInequality [] 0]) :=
  ⟨by decide, claimC10 [mkInequality [] 0] "5" "0" 5 (by decide)⟩

theorem rpnWF_no_muldiv :
    ∀ {seq : List RTok} {s : Nat}, rpnWF s seq = true →
      ∀ t ∈ seq, t ≠ RTok.mul ∧ t ≠ RTok.div := by
  intro seq
  induction seq with
  | nil => intro s _ t ht; cases ht
  | cons tok rest ih =>
    intro s hwf t ht
    cases tok with
    | num n =>
      rcases List.mem_cons.mp ht with rfl | h2
      · exact ⟨by simp, by simp⟩
      · exact ih (by simpa [rpnWF] using hwf) t h2
    | add =>
      rcases List.mem_cons.mp ht with rfl | h2
      · exact ⟨by simp, by simp⟩
      · have h3 : 2 ≤ s ∧ rpnWF (s - 1) rest = true := by
          simpa [rpnWF] using hwf
        exact ih h3.2 t h2
    | mul => simp [rpnWF] at hwf
    | div => simp [rpnWF] at hwf
    | sat => simp [rpnWF] at hwf

theorem swapStep_id {l : List RTok}
    (h : ∀ t ∈ l, t ≠ RTok.mul ∧ t ≠ RTok.div) (i : Nat) :
    swapStep l i = l := by
  rw [swapStep]
  cases hget : l.get? i with
  | none => rfl
  | some x =>
    have hx : x ∈ l := List.get?_mem hget
    have hc : ¬ (x = RTok.mul ∨ x = RTok.div) := by
      push_neg
      exact h x hx
    simp only [if_neg hc]

theorem swapOps_id {l : List RTok}
    (h : ∀ t ∈ l, t ≠ RTok.mul ∧ t ≠ RTok.div) : swapOps l = l := by
  rw [swapOps]
  generalize List.range l.length = idxs
  induction idxs with
  | nil => rfl
  | cons i rest ih => rw [List.foldl_cons, swapStep_id h i, ih]

/-- The `a`-rule accumulator fold, for factors all 1. -/
theorem lcFold_spec :
    ∀ (ants : List Inequality) (acc : Inequality),
      NF acc → noZeroVar acc.terms →
      (∀ a ∈ ants, NF a ∧ noZeroVar a.terms) →
      NF ((List.zip (List.replicate ants.length 1) ants).foldl
        (fun acc p => acc.addWithFactor p.1 p.2.terms p.2.degree) acc) ∧
      noZeroVar ((List.zip (List.replicate ants.length 1) ants).foldl
        (fun acc p => acc.addWithFactor p.1 p.2.terms p.2.degree) acc).terms ∧
      rdeg ((List.zip (List.replicate ants.length 1) ants).foldl
        (fun acc p => acc.addWithFactor p.1 p.2.terms p.2.degree) acc)
        = rdeg acc + (ants.map rdeg).sum ∧
      ∀ k, sumSigned k ((List.zip (List.replicate ants.length 1) ants).foldl
        (fun acc p => acc.addWithFactor p.1 p.2.terms p.2.degree) acc).terms
        = sumSigned k acc.terms
          + (ants.map fun a => sumSigned k a.terms).sum := by
  intro ants
  induction ants with
  | nil =>
    intro acc h1 h2 _
    simp only [List.length_nil, List.replicate, List.zip_nil_right,
      List.foldl_nil, List.map_nil, List.sum_nil]
    exact ⟨h1, h2, by ring, fun k => by ring⟩
  | cons a rest ih =>
    intro acc h1 h2 h3
    have ha := h3 a (List.mem_cons_self a rest)
    obtain ⟨r1, r2, r3, r4, r5, _⟩ :=
      @addWithFactor_spec acc 1 a.terms a.degree
        h1.1 h1.2 h2 ha.1.1 ha.2 (by omega)
    have hzip : List.zip (List.replicate (a :: rest).length 1) (a :: rest)
        = ((1 : Int), a) :: List.zip (List.replicate rest.length 1) rest := by
      rw [List.length_cons, List.replicate_succ, List.zip_cons_cons]
    rw [hzip, List.foldl_cons]
    obtain ⟨q1, q2, q3, q4⟩ :=
      ih (acc.addWithFactor 1 a.terms a.degree) ⟨r1, r2⟩ r3
        (fun x hx => h3 x (List.mem_cons_of_mem _ hx))
    refine ⟨q1, q2, ?_, fun k => ?_⟩
    · rw [q3, List.map_cons, List.sum_cons]
      have h5 : rdeg (acc.addWithFactor 1 a.terms a.degree)
          = rdeg acc + rdeg a := by
        rw [rdeg, r4, rdeg, rdeg]
        ring
      rw [h5]
      ring
    · rw [q4 k, r5 k, List.map_cons, List.sum_cons]
      ring

/-- The invariant of the RPN stack machine on addition-only programs:
execution succeeds, the result's view is in normal form, and its semantic
degree and signed coefficient map are the sums of those of the stack and of
the consumed antecedents. -/
theorem rpnRunNA_spec (seq : List RTok) :
    ∀ (st : List StackElem) (ants : List Inequality),
      rpnWF st.length seq = true →
      ants.length = countNums seq →
      (∀ e ∈ st, NFview e) →
      (∀ a ∈ ants, NF a ∧ noZeroVar a.terms) →
      ∃ e, rpnRun seq st ants = some e ∧ NFview e ∧
        (e.viewDegree - npSum e.viewTerms)
          = (st.map fun x => x.viewDegree - npSum x.viewTerms).sum
            + (ants.map rdeg).sum ∧
        ∀ k, sumSigned k e.viewTerms
          = (st.map fun x => sumSigned k x.viewTerms).sum
            + (ants.map fun a => sumSigned k a.terms).sum := by
  induction seq with
  | nil =>
    intro st ants hwf hlen hst hants
    have h1 : st.length = 1 := by simpa [rpnWF] using hwf
    obtain ⟨x, rfl⟩ := List.length_eq_one.mp h1
    have h2 : ants = [] := by
      have : ants.length = 0 := by simpa [countNums] using hlen
      exact List.eq_nil_of_length_eq_zero this
    subst h2
    refine ⟨x, rfl, hst x (List.mem_cons_self _ _), ?_, fun k => ?_⟩
    · simp
    · simp
  | cons tok rest ih =>
    intro st ants hwf hlen hst hants
    cases tok with
    | num n =>
      cases ants with
      | nil => simp [countNums] at hlen
      | cons a ants2 =>
        have ha := hants a (List.mem_cons_self _ _)
        have hview : (StackElem.lazy (mkLazy a)).viewTerms = a.terms :=
          mkLazy_terms a
        have hviewd : (StackElem.lazy (mkLazy a)).viewDegree = a.degree := rfl
        have hNFa : NFview (StackElem.lazy (mkLazy a)) := by
          rw [NFview, hview]
          exact ⟨ha.1.1, ha.1.2, ha.2⟩
        obtain ⟨e, he, hNF, hrd, hσ⟩ := ih (StackElem.lazy (mkLazy a) :: st)
          ants2
          (by simpa [rpnWF] using hwf)
          (by simpa [countNums] using hlen)
          (by
            intro x hx
            rcases List.mem_cons.mp hx with rfl | h2
            · exact hNFa
            · exact hst x h2)
          (fun x hx => hants x (List.mem_cons_of_mem _ hx))
        refine ⟨e, ?_, hNF, ?_, fun k => ?_⟩
        · rw [← he]
          rfl
        · rw [hrd, List.map_cons, List.sum_cons, hview, hviewd,
            List.map_cons, List.sum_cons]
          show _ = _ + (rdeg a + _)
          rw [rdeg]
          ring
        · rw [hσ k, List.map_cons, List.sum_cons, hview,
            List.map_cons, List.sum_cons]
          ring
    | add =>
      have h3 : 2 ≤ st.length ∧ rpnWF (st.length - 1) rest = true := by
        simpa [rpnWF] using hwf
      cases st with
      | nil => simp at h3
      | cons x st1 =>
        cases st1 with
        | nil => simp at h3
        | cons y st2 =>
          have hx := hst x (List.mem_cons_self _ _)
          have hy := hst y (List.mem_cons_of_mem _ (List.mem_cons_self _ _))
          obtain ⟨hyt, hyd⟩ := toInequality_view hy.1
          have hynn : nonnegTerms y.toInequality.terms := by
            rw [hyt]; exact hy.1
          have hynd : nodupKeys y.toInequality.terms := by
            rw [hyt]; exact hy.2.1
          have hynz : noZeroVar y.toInequality.terms := by
            rw [hyt]; exact hy.2.2
          obtain ⟨r1, r2, r3, r4, r5, _⟩ :=
            @addWithFactor_spec y.toInequality 1 x.viewTerms x.viewDegree
              hynn hynd hynz hx.1 hx.2.2 (by omega)
          set M := y.toInequality.addWithFactor 1 x.viewTerms x.viewDegree
            with hM
          have hMview : (StackElem.mat M).viewTerms = M.terms := rfl
          have hMviewd : (StackElem.mat M).viewDegree = M.degree := rfl
          have hNFM : NFview (StackElem.mat M) := ⟨r1, r2, r3⟩
          obtain ⟨e, he, hNF, hrd, hσ⟩ := ih (StackElem.mat M :: st2) ants
            (by
              show rpnWF (st2.length + 1) rest = true
              have : (x :: y :: st2).length - 1 = st2.length + 1 := by
                simp
              rw [← this]
              exact h3.2)
            (by simpa [countNums] using hlen)
            (by
              intro z hz
              rcases List.mem_cons.mp hz with rfl | h2
              · exact hNFM
              · exact hst z (List.mem_cons_of_mem _ (List.mem_cons_of_mem _ h2)))
            hants
          refine ⟨e, ?_, hNF, ?_, fun k => ?_⟩
          · rw [← he]
            rfl
          · rw [hrd, List.map_cons, List.sum_cons, hMview, hMviewd]
            have h6 : M.degree - npSum M.terms
                = (y.viewDegree - npSum y.viewTerms)
                  + (x.viewDegree - npSum x.viewTerms) := by
              rw [r4, hyt, hyd]
              ring
            rw [h6]
            simp only [List.map_cons, List.sum_cons]
            ring
          · rw [hσ k, List.map_cons, List.sum_cons, hMview]
            have h7 : sumSigned k M.terms
                = sumSigned k y.viewTerms + sumSigned k x.viewTerms := by
              rw [r5 k, hyt]
              ring
            rw [h7]
            simp only [List.map_cons, List.sum_cons]
            ring
    | mul => simp [rpnWF] at hwf
    | div => simp [rpnWF] at hwf
    | sat => simp [rpnWF] at hwf

/-- Contracting the final stack element preserves the abstraction of its
view (a lazy element's `contract` is a no-op; a materialized one's drops
zero-coefficient terms only). -/
theorem contractElem_spec {e : StackElem} (h : NFview e) :
    nonnegTerms e.contract.toInequality.terms ∧
    nodupKeys e.contract.toInequality.terms ∧
    rdeg e.contract.toInequality = e.viewDegree - npSum e.viewTerms ∧
    ∀ k, sumSigned k e.contract.toInequality.terms
      = sumSigned k e.viewTerms := by
  cases e with
  | lazy L =>
    show nonnegTerms (mkInequality L.terms L.degree).terms ∧
      nodupKeys (mkInequality L.terms L.degree).terms ∧
      rdeg (mkInequality L.terms L.degree) = L.degree - npSum L.terms ∧
      ∀ k, sumSigned k (mkInequality L.terms L.degree).terms
        = sumSigned k L.terms
    rw [mkInequality_of_nonneg (show nonnegTerms L.terms from h.1)]
    exact ⟨h.1, h.2.1, rfl, fun _ => rfl⟩
  | mat c =>
    obtain ⟨r1, r2, _, r4, r5⟩ := contract_spec h.1 h.2.1 h.2.2
    exact ⟨r1, r2, r4, r5⟩

/-- C6 (confirmed): a well-formed addition-only RPN program produces (after
the rule's swap preprocessing and final contract) a constraint structurally
equal to the `a` rule applied to the same antecedents, in order, with all
factors 1. -/
theorem claimC6 (seq : List RTok) (ants : List Inequality)
    (hwf : rpnWF 0 seq = true)
    (hlen : ants.length = countNums seq)
    (hants : ∀ a ∈ ants, NF a ∧ noZeroVar a.terms) :
    ∃ e, rpnCompute (swapOps seq) ants = some e ∧
      eqAbs e.toInequality
        (lcCompute (List.replicate ants.length 1) ants) := by
  rw [swapOps_id (rpnWF_no_muldiv hwf)]
  obtain ⟨e, he, hNF, hrd, hσ⟩ := rpnRunNA_spec seq [] ants hwf hlen
    (by intro x hx; cases hx) hants
  refine ⟨e.contract, ?_, ?_⟩
  · rw [rpnCompute, he]
    rfl
  · obtain ⟨c1, c2, c3, c4⟩ := contractElem_spec hNF
    have hlc := lcFold_spec ants (mkInequality [] 0)
      (by decide) (by decide) hants
    have hlceq : lcCompute (List.replicate ants.length 1) ants
        = (List.zip (List.replicate ants.length 1) ants).foldl
          (fun acc p => acc.addWithFactor p.1 p.2.terms p.2.degree)
          (mkInequality [] 0) := rfl
    rw [hlceq]
    apply eqAbs_of_spec c1 c2 hlc.1.1 hlc.1.2
    · rw [c3, hrd, hlc.2.2.1]
      show (List.map _ []).sum + _ = rdeg (mkInequality [] 0) + _
      have h0 : rdeg (mkInequality [] 0) = 0 := by decide
      rw [h0]
      simp
    · intro k
      rw [c4 k, hσ k, (hlc.2.2.2 k)]
      show (List.map _ []).sum + _ = sumSigned k (mkInequality [] 0).terms + _
      have h0 : sumSigned k (mkInequality [] 0).terms = 0 := rfl
      rw [h0]
      simp

/-- C6 witness: `p 1 2 +` against `a 1 1 1 2 0` at two concrete normalized
antecedents. -/
theorem claimC6_wit :
    rpnWF 0 [RTok.num 1, RTok.num 2, RTok.add] = true ∧
    ([mkInequality [Term.mk 1 1] 1,
      mkInequality [Term.mk 1 (-1), Term.mk 1 2] 1] : List Inequality).length
      = countNums [RTok.num 1, RTok.num 2, RTok.add] ∧
    (∀ a ∈ [mkInequality [Term.mk 1 1] 1,
        mkInequality [Term.mk 1 (-1), Term.mk 1 2] 1],
      NF a ∧ noZeroVar a.terms) ∧
    ∃ e, rpnCompute (swapOps [RTok.num 1, RTok.num 2, RTok.add])
        [mkInequality [Term.mk 1 1] 1,
          mkInequality [Term.mk 1 (-1), Term.mk 1 2] 1] = some e ∧
      eqAbs e.toInequality
        (lcCompute
          (List.replicate
            ([mkInequality [Term.mk 1 1] 1,
              mkInequality [Term.mk 1 (-1), Term.mk 1 2] 1] :
                List Inequality).length 1)
          [mkInequality [Term.mk 1 1] 1,
            mkInequality [Term.mk 1 (-1), Term.mk 1 2] 1]) :=
  ⟨by decide, by decide, by decide,
    claimC6 [RTok.num 1, RTok.num 2, RTok.add]
      [mkInequality [Term.mk 1 1] 1,
        mkInequality [Term.mk 1 (-1), Term.mk 1 2] 1]
      (by decide) (by decide) (by decide)⟩
